import Mathlib

/-!
Verification development for the Earh-Moon graph-evolution engine.

The repository simulates a graph that starts as a complete graph K_k and
grows one vertex per step while edges age and are pruned.  The shallow
embedding below follows the Python sources:

* src/CompleteGraph.py      (class KomplettGraph, heap stored on the object)
* src/graph/base_graph.py   (BaseGraph: chromatic_number, arboricity)
* src/graph/edge_operations.py (EdgeOperations: add_new_edges,
                                remove_old_edges, random_edge_removal)
* src/graph/komplett_graph.py (KomplettGraph over EdgeOperations)
* src/graph/thickness.py    (ThicknessCalculator: thickness_dfs, check_thickness)
* src/k10.py                (an older variant of the same engine)

Graphs are modelled as a node list plus an edge list of ordered pairs,
mirroring the networkx operations actually used (add_node, add_edge,
remove_edge, has_edge, number_of_nodes, number_of_edges, edges,
connected_components).  The heapq priority queue is modelled by its
documented contract: heappush inserts an entry, heappop extracts the
minimum entry in the lexicographic tuple order; the internal array layout
of the binary heap is abstracted away (every property proved here is
independent of that layout).  Randomness (random.sample, random.shuffle)
is modelled by passing the sampled or shuffled list as an explicit
parameter.
-/

/-- A graph in the style of networkx: a list of nodes and a list of
(undirected) edges stored as ordered pairs, in insertion order.  All code
paths of the repository insert an edge (u, v) with u < v, and never insert
an edge twice or a self-loop. -/
structure Graph where
  nodes : List Nat
  edges : List (Nat × Nat)
deriving DecidableEq, Repr

/-- networkx Graph.has_edge: the edge is present in either orientation. -/
def Graph.hasEdge (G : Graph) (u v : Nat) : Bool :=
  decide ((u, v) ∈ G.edges ∨ (v, u) ∈ G.edges)

/-- networkx Graph.add_node: a no-op when the node is already present. -/
def Graph.addNode (G : Graph) (v : Nat) : Graph :=
  if v ∈ G.nodes then G else { G with nodes := G.nodes ++ [v] }

/-- networkx Graph.add_edge: inserts missing endpoints, then the edge
(a no-op when the edge is already present in either orientation). -/
def Graph.addEdge (G : Graph) (u v : Nat) : Graph :=
  let G1 := (G.addNode u).addNode v
  if G1.hasEdge u v then G1 else { G1 with edges := G1.edges ++ [(u, v)] }

/-- networkx Graph.remove_edge: drops the edge in whichever orientation it
is stored; nodes are kept.  (networkx raises when the edge is absent; every
call site of the repository removes a present edge.) -/
def Graph.removeEdge (G : Graph) (u v : Nat) : Graph :=
  { G with edges := G.edges.filter (fun p => !(p = (u, v) ∨ p = (v, u) : Bool)) }

def Graph.numberOfNodes (G : Graph) : Nat := G.nodes.length

def Graph.numberOfEdges (G : Graph) : Nat := G.edges.length

/-- Edge list of the complete graph K_k: all pairs (u, v) with u < v < k,
grouped by the larger endpoint.  (nx.complete_graph lists the same pairs in
a different order; no property below depends on the order of this list.) -/
def completeEdges (k : Nat) : List (Nat × Nat) :=
  (List.range k).flatMap (fun v => (List.range v).map (fun u => (u, v)))

/-- nx.complete_graph k. -/
def complete_graph (k : Nat) : Graph :=
  { nodes := List.range k, edges := completeEdges k }

theorem completeEdges_succ (k : Nat) :
    completeEdges (k + 1) = completeEdges k ++ (List.range k).map (fun u => (u, k)) := by
  unfold completeEdges
  rw [List.range_succ, List.flatMap_append]
  simp

theorem completeEdges_length (k : Nat) : 2 * (completeEdges k).length = k * (k - 1) := by
  induction k with
  | zero => rfl
  | succ k ih =>
    rw [completeEdges_succ, List.length_append, List.length_map, List.length_range]
    cases k with
    | zero => rfl
    | succ m => simp only [Nat.succ_sub_one] at *; ring_nf; ring_nf at ih; omega

theorem mem_completeEdges {k u v : Nat} :
    (u, v) ∈ completeEdges k ↔ u < v ∧ v < k := by
  unfold completeEdges
  simp only [List.mem_flatMap, List.mem_map, List.mem_range]
  constructor
  · rintro ⟨w, hw, x, hx, hxe⟩
    cases hxe
    exact ⟨hx, hw⟩
  · rintro ⟨huv, hvk⟩
    exact ⟨v, hvk, u, huv, rfl⟩

/-- State of the engine of src/CompleteGraph.py (and of src/k10.py): the
graph, the edge heap of (timestamp, edge) entries and the timestamp
counter all live on the KomplettGraph object. -/
structure KGState where
  G : Graph
  edge_heap : List (Nat × (Nat × Nat))
  current_time : Nat
deriving DecidableEq, Repr

/-- heapq.heappush, modelled at the multiset level: the new entry joins the
heap.  (The binary-heap array layout is abstracted; pops extract the
minimum entry regardless of layout.) -/
def heapPush (h : List (Nat × (Nat × Nat))) (e : Nat × (Nat × Nat)) :
    List (Nat × (Nat × Nat)) := h ++ [e]

/-- KomplettGraph.__init__ (src/CompleteGraph.py lines 12-28, identical in
src/k10.py and src/graph/komplett_graph.py): start from K_k, seed the heap
with one timestamp-0 entry per initial edge, and set the timestamp counter
to the number of initial edges. -/
def initKG (k : Nat) : KGState :=
  let G := complete_graph k
  let heap := G.edges.map (fun e => (0, e))
  { G := G, edge_heap := heap, current_time := heap.length }

/-- The body of the loop of KomplettGraph.add_new_edges: add the edge to
the graph, push (current_time, edge) onto the heap, increment the
counter. -/
def pushEdge (s : KGState) (existing newNode : Nat) : KGState :=
  { G := s.G.addEdge existing newNode,
    edge_heap := heapPush s.edge_heap (s.current_time, (existing, newNode)),
    current_time := s.current_time + 1 }

/-- KomplettGraph.add_new_edges (src/CompleteGraph.py lines 163-187;
EdgeOperations.add_new_edges is the same code): connect new_node to
nodes_to_connect, which is every existing node when num_edges is None or
at least their number, and otherwise a random sample of size num_edges.
The sample drawn by random.sample is passed in as the explicit parameter
so that the function stays deterministic. -/
def addNewEdges (s : KGState) (newNode : Nat) (numEdges : Option Nat)
    (sample : List Nat) : KGState :=
  let existing := List.range newNode
  let nodesToConnect :=
    match numEdges with
    | none => existing
    | some m => if m ≥ existing.length then existing else sample
  nodesToConnect.foldl (fun t x => pushEdge t x newNode) s

/-- Timestamps of the heap entries, in heap order. -/
def heapTimes (h : List (Nat × (Nat × Nat))) : List Nat := h.map Prod.fst

theorem heapTimes_initKG (k : Nat) :
    heapTimes (initKG k).edge_heap = List.replicate (completeEdges k).length 0 := by
  simp [heapTimes, initKG, complete_graph, List.map_map, Function.comp_def, List.map_const']

/-- One pushEdge appends exactly one entry, stamped with the current
counter, and bumps the counter. -/
theorem pushEdge_heap (s : KGState) (x y : Nat) :
    (pushEdge s x y).edge_heap = s.edge_heap ++ [(s.current_time, (x, y))] ∧
      (pushEdge s x y).current_time = s.current_time + 1 := ⟨rfl, rfl⟩

/-- After folding pushEdge over a list of endpoints, the heap has gained
one entry per endpoint, stamped current_time, current_time+1, ... in
order, and the counter advanced by the number of pushes. -/
theorem foldl_pushEdge_spec (l : List Nat) (s : KGState) (y : Nat) :
    (l.foldl (fun t x => pushEdge t x y) s).edge_heap
        = s.edge_heap ++ ((List.range' s.current_time l.length).zip
            (l.map (fun x => (x, y)))) ∧
      (l.foldl (fun t x => pushEdge t x y) s).current_time
        = s.current_time + l.length ∧
      (l.foldl (fun t x => pushEdge t x y) s).G
        = l.foldl (fun g x => g.addEdge x y) s.G := by
  induction l generalizing s with
  | nil => simp
  | cons x xs ih =>
    simp only [List.foldl_cons, List.length_cons, List.range'_succ, List.map_cons,
      List.zip_cons_cons]
    obtain ⟨h1, h2, h3⟩ := ih (pushEdge s x y)
    refine ⟨?_, by rw [h2]; simp only [pushEdge]; omega, by simpa [pushEdge] using h3⟩
    rw [h1]
    simp [pushEdge, heapPush]

/-- Applying a whole sequence of add_new_edges calls (each with its new
node, its num_edges argument and the sample random.sample would return). -/
def applyPushes (s : KGState) (ops : List (Nat × Option Nat × List Nat)) : KGState :=
  ops.foldl (fun t op => addNewEdges t op.1 op.2.1 op.2.2) s

theorem addNewEdges_spec (s : KGState) (newNode : Nat) (numEdges : Option Nat)
    (sample : List Nat) :
    ∃ l : List Nat,
      (addNewEdges s newNode numEdges sample).edge_heap
          = s.edge_heap ++ ((List.range' s.current_time l.length).zip
              (l.map (fun x => (x, newNode)))) ∧
      (addNewEdges s newNode numEdges sample).current_time
          = s.current_time + l.length := by
  unfold addNewEdges
  obtain ⟨h1, h2, _⟩ := foldl_pushEdge_spec
    (match numEdges with
      | none => List.range newNode
      | some m => if m ≥ (List.range newNode).length then List.range newNode else sample)
    s newNode
  exact ⟨_, h1, h2⟩

/-- C10: the engine starts with one timestamp-0 record per initial edge
(all equal, not distinct), there are k*(k-1)/2 of them, the timestamp
counter starts at k*(k-1)/2, and the first subsequent push is stamped
k*(k-1)/2. -/
theorem c10_initial_timestamps (k : Nat) :
    (initKG k).edge_heap.length = k * (k - 1) / 2 ∧
    (∀ en ∈ (initKG k).edge_heap, en.1 = 0) ∧
    (initKG k).current_time = k * (k - 1) / 2 ∧
    (∀ x y : Nat, (pushEdge (initKG k) x y).edge_heap
        = (initKG k).edge_heap ++ [(k * (k - 1) / 2, (x, y))]) := by
  have hlen : (initKG k).edge_heap.length = (completeEdges k).length := by
    simp [initKG, complete_graph]
  have h2k := completeEdges_length k
  have hdiv : (completeEdges k).length = k * (k - 1) / 2 := by omega
  refine ⟨hlen.trans hdiv, ?_, ?_, ?_⟩
  · intro en hen
    simp only [initKG, complete_graph, List.mem_map] at hen
    obtain ⟨e, _, he⟩ := hen
    simp [← he]
  · simpa [initKG, complete_graph] using hdiv
  · intro x y
    have ht : (initKG k).current_time = k * (k - 1) / 2 := by
      simpa [initKG, complete_graph] using hdiv
    simp [pushEdge, heapPush, ht]

theorem c10_initial_timestamps_witness :
    (initKG 4).edge_heap.length = 6 ∧ ((0, (0, 1)) : Nat × Nat × Nat).1 = 0 := by
  refine ⟨by simpa using (c10_initial_timestamps 4).1, ?_⟩
  exact (c10_initial_timestamps 4).2.1 (0, (0, 1)) (by decide)

/-- C9: across any sequence of add_new_edges calls, the pushed records
form a block of strictly increasing timestamps current_time,
current_time+1, ...; and whenever every pre-existing heap entry is stamped
below the counter (as in every reachable state), every new record is
stamped strictly above every pre-existing one. -/
theorem c9_push_timestamps_increasing (s : KGState)
    (ops : List (Nat × Option Nat × List Nat)) :
    ∃ news : List (Nat × (Nat × Nat)),
      (applyPushes s ops).edge_heap = s.edge_heap ++ news ∧
      heapTimes news = List.range' s.current_time news.length ∧
      List.Pairwise (· < ·) (heapTimes news) ∧
      (applyPushes s ops).current_time = s.current_time + news.length ∧
      ((∀ en ∈ s.edge_heap, en.1 < s.current_time) →
        ∀ en ∈ s.edge_heap, ∀ en2 ∈ news, en.1 < en2.1) := by
  induction ops generalizing s with
  | nil =>
    refine ⟨[], by simp [applyPushes], by simp [heapTimes], by simp [heapTimes], by
      simp [applyPushes], by simp⟩
  | cons op rest ih =>
    obtain ⟨l, h1, h2⟩ := addNewEdges_spec s op.1 op.2.1 op.2.2
    set s1 := addNewEdges s op.1 op.2.1 op.2.2 with hs1
    obtain ⟨news2, g1, g2, g3, g4, g5⟩ := ih s1
    set Z1 : List (Nat × (Nat × Nat)) :=
      (List.range' s.current_time l.length).zip (l.map (fun x => (x, op.1))) with hZ1
    have hZlen : Z1.length = l.length := by
      simp [hZ1]
    have hZtimes : heapTimes Z1 = List.range' s.current_time l.length := by
      simp only [heapTimes, hZ1]
      exact List.map_fst_zip _ _ (by simp)
    have happ : applyPushes s (op :: rest) = applyPushes s1 rest := by
      simp [applyPushes, hs1]
    have htot : heapTimes (Z1 ++ news2)
        = List.range' s.current_time (Z1 ++ news2).length := by
      rw [heapTimes, List.map_append, ← heapTimes, ← heapTimes, hZtimes, g2, h2,
        List.length_append, hZlen]
      have := List.range'_append s.current_time l.length news2.length 1
      simpa [Nat.add_comm] using this.symm
    refine ⟨Z1 ++ news2, ?_, htot, ?_, ?_, ?_⟩
    · rw [happ, g1, h1, List.append_assoc]
    · rw [htot]
      exact List.pairwise_lt_range' ..
    · rw [happ, g4, h2, List.length_append, hZlen]
      omega
    · intro hb en hen en2 hen2
      have h2mem : en2.1 ∈ heapTimes (Z1 ++ news2) := by
        rw [heapTimes]
        exact List.mem_map_of_mem Prod.fst hen2
      rw [htot] at h2mem
      have := (List.mem_range'_1.mp h2mem).1
      exact lt_of_lt_of_le (hb en hen) this

theorem c9_push_timestamps_increasing_witness :
    ∃ news : List (Nat × (Nat × Nat)),
      (applyPushes (initKG 3) [(3, none, [])]).edge_heap
          = (initKG 3).edge_heap ++ news ∧
      List.Pairwise (· < ·) (heapTimes news) ∧
      ∀ en ∈ (initKG 3).edge_heap, ∀ en2 ∈ news, en.1 < en2.1 := by
  obtain ⟨news, h1, _, h3, _, h5⟩ :=
    c9_push_timestamps_increasing (initKG 3) [(3, none, [])]
  exact ⟨news, h1, h3, h5 (by decide)⟩

/-- Scenario A of the spec: start from K_5 and perform the one step that
adds vertex 5 attached to all 5 existing vertices with removeCount 0.
add_edge_step first runs self.G.add_node(new_node) and then
add_new_edges(new_node) with no sampling (attach to all); a removal count
of 0 leaves graph, heap and counter untouched. -/
def scenarioA : KGState :=
  addNewEdges { initKG 5 with G := (initKG 5).G.addNode 5 } 5 none []

/-- C5, counterexample: the resulting graph does have 6 vertices, 15 edges
and a store of 15 entries, but the store timestamps are NOT 0..14: the ten
initial records all carry timestamp 0. -/
theorem c5_claim_counterexample :
    scenarioA.G.numberOfNodes = 6 ∧ scenarioA.G.numberOfEdges = 15 ∧
    scenarioA.edge_heap.length = 15 ∧
    ¬ (heapTimes scenarioA.edge_heap).Perm (List.range 15) := by decide

/-- C5, amended: after Scenario A the graph has 6 vertices and 15 edges
and the store holds 15 entries, of which the ten initial ones carry
timestamp 0 and the five new ones carry timestamps 10..14. -/
theorem c5_amended_scenarioA :
    scenarioA.G.numberOfNodes = 6 ∧ scenarioA.G.numberOfEdges = 15 ∧
    scenarioA.edge_heap.length = 15 ∧
    (heapTimes scenarioA.edge_heap).Perm
      (List.replicate 10 0 ++ [10, 11, 12, 13, 14]) := by decide

/-- Strict lexicographic order on (timestamp, (u, v)) heap entries: the
tuple comparison Python uses inside heapq. -/
def entryLt (a b : Nat × (Nat × Nat)) : Bool :=
  decide (a.1 < b.1) ||
    (decide (a.1 = b.1) &&
      (decide (a.2.1 < b.2.1) || (decide (a.2.1 = b.2.1) && decide (a.2.2 < b.2.2))))

/-- The minimum entry of a heap (the entry heapq.heappop returns). -/
def findMin (h : List (Nat × (Nat × Nat))) : Option (Nat × (Nat × Nat)) :=
  match h with
  | [] => none
  | e :: es => some (es.foldl (fun m x => if entryLt x m then x else m) e)

/-- heapq.heappop, by its contract: extract the minimum entry in the
lexicographic tuple order (none when the heap is empty). -/
def heapPop (h : List (Nat × (Nat × Nat))) :
    Option ((Nat × (Nat × Nat)) × List (Nat × (Nat × Nat))) :=
  match findMin h with
  | none => none
  | some m => some (m, h.erase m)

theorem foldl_min_mem (es : List (Nat × (Nat × Nat))) (e : Nat × (Nat × Nat)) :
    es.foldl (fun m x => if entryLt x m then x else m) e ∈ e :: es := by
  induction es generalizing e with
  | nil => simp
  | cons x xs ih =>
    simp only [List.foldl_cons]
    by_cases hx : entryLt x e
    · rw [if_pos hx]
      rcases List.mem_cons.mp (ih x) with h | h
      · simp [h]
      · simp [h]
    · rw [if_neg hx]
      rcases List.mem_cons.mp (ih e) with h | h
      · simp [h]
      · simp [h]

theorem heapPop_mem_sub {h : List (Nat × (Nat × Nat))}
    {m : Nat × (Nat × Nat)} {rest : List (Nat × (Nat × Nat))}
    (hp : heapPop h = some (m, rest)) :
    m ∈ h ∧ ∀ x ∈ rest, x ∈ h := by
  unfold heapPop at hp
  cases h with
  | nil => simp [findMin] at hp
  | cons e es =>
    simp only [findMin, Option.some.injEq, Prod.mk.injEq] at hp
    obtain ⟨hm, hrest⟩ := hp
    have hmem : m ∈ e :: es := hm ▸ foldl_min_mem es e
    exact ⟨hmem, fun x hx => (List.erase_sublist _ _).mem (hrest ▸ hx)⟩

/-- Removing one edge never makes another present edge absent. -/
theorem hasEdge_of_removeEdge {G : Graph} {x y a b : Nat}
    (h : (G.removeEdge x y).hasEdge a b = true) : G.hasEdge a b = true := by
  simp only [Graph.hasEdge, Graph.removeEdge, decide_eq_true_eq, List.mem_filter] at h ⊢
  rcases h with ⟨hm, _⟩ | ⟨hm, _⟩
  · exact Or.inl hm
  · exact Or.inr hm

/-- EdgeOperations.remove_old_edges (src/graph/edge_operations.py lines
25-33; the same loop appears in src/k10.py): pop the minimum heap entry;
skip it when its edge is no longer in the graph; otherwise remove the edge
and count it, until the requested count is reached or the heap empties.
The while loop is embedded with an explicit iteration bound: every
iteration pops one entry, so heap.length iterations always suffice and the
wrapper passes exactly that.  The acc list records the edges actually
removed, purely so the specification can speak about them. -/
def removeOldEdgesGo (G : Graph) (heap : List (Nat × (Nat × Nat))) (need : Nat)
    (acc : List (Nat × Nat)) :
    Nat → Graph × List (Nat × (Nat × Nat)) × List (Nat × Nat)
  | 0 => (G, heap, acc)
  | fuel + 1 =>
    match need with
    | 0 => (G, heap, acc)
    | n + 1 =>
      match heapPop heap with
      | none => (G, heap, acc)
      | some ((_, e), rest) =>
        if G.hasEdge e.1 e.2 then
          removeOldEdgesGo (G.removeEdge e.1 e.2) rest n (acc ++ [e]) fuel
        else
          removeOldEdgesGo G rest (n + 1) acc fuel

def remove_old_edges (s : KGState) (numEdgesToRemove : Nat) :
    KGState × List (Nat × Nat) :=
  let r := removeOldEdgesGo s.G s.edge_heap numEdgesToRemove [] s.edge_heap.length
  ({ G := r.1, edge_heap := r.2.1, current_time := s.current_time }, r.2.2)

theorem removeOldEdgesGo_removed (fuel : Nat) :
    ∀ (G : Graph) (heap : List (Nat × (Nat × Nat))) (need : Nat)
      (acc : List (Nat × Nat)),
      ∃ extra : List (Nat × Nat),
        (removeOldEdgesGo G heap need acc fuel).2.2 = acc ++ extra ∧
        extra.length ≤ need ∧
        ∀ e ∈ extra, G.hasEdge e.1 e.2 = true := by
  induction fuel with
  | zero => intro G heap need acc; exact ⟨[], by simp [removeOldEdgesGo], by simp, by simp⟩
  | succ fuel ih =>
    intro G heap need acc
    match need with
    | 0 => exact ⟨[], by simp [removeOldEdgesGo], by simp, by simp⟩
    | n + 1 =>
      match hp : heapPop heap with
      | none => exact ⟨[], by simp [removeOldEdgesGo, hp], by simp, by simp⟩
      | some ((t, e), rest) =>
        by_cases hl : G.hasEdge e.1 e.2
        · obtain ⟨extra, h1, h2, h3⟩ := ih (G.removeEdge e.1 e.2) rest n (acc ++ [e])
          refine ⟨e :: extra, ?_, by simpa using h2, ?_⟩
          · simp only [removeOldEdgesGo, hp, hl, if_pos]
            simpa using h1
          · intro x hx
            rcases List.mem_cons.mp hx with rfl | hx
            · exact hl
            · exact hasEdge_of_removeEdge (h3 x hx)
        · obtain ⟨extra, h1, h2, h3⟩ := ih G rest (n + 1) acc
          refine ⟨extra, ?_, h2, h3⟩
          simp only [removeOldEdgesGo, hp]
          rw [if_neg hl]
          exact h1

theorem removeOldEdgesGo_exhausted (fuel : Nat) :
    ∀ (G : Graph) (heap : List (Nat × (Nat × Nat))) (need : Nat)
      (acc : List (Nat × Nat)),
      (∀ en ∈ heap, G.hasEdge en.2.1 en.2.2 = false) →
      (removeOldEdgesGo G heap need acc fuel).1 = G ∧
        (removeOldEdgesGo G heap need acc fuel).2.2 = acc := by
  induction fuel with
  | zero => intro G heap need acc _; exact ⟨rfl, rfl⟩
  | succ fuel ih =>
    intro G heap need acc hstale
    match need with
    | 0 => exact ⟨rfl, rfl⟩
    | n + 1 =>
      match hp : heapPop heap with
      | none => simp [removeOldEdgesGo, hp]
      | some ((t, e), rest) =>
        obtain ⟨hmem, hsub⟩ := heapPop_mem_sub hp
        have hst : G.hasEdge e.1 e.2 = false := hstale (t, e) hmem
        simp only [removeOldEdgesGo, hp, hst, Bool.false_eq_true, if_false]
        exact ih G rest (n + 1) acc (fun en hen => hstale en (hsub en hen))

/-- C6: oldest-first removal tolerates stale heap entries.  Every edge it
removes was live in the graph when the call began (so an edge removed
behind the store's back is never removed again or returned), it never
removes more than requested, it is a total function (no error), and when
every heap entry is stale the graph is left untouched and nothing is
removed: exhaustion just removes fewer edges than requested. -/
theorem c6_stale_entries_tolerated (s : KGState) (k : Nat) :
    (remove_old_edges s k).2.length ≤ k ∧
    (∀ e ∈ (remove_old_edges s k).2, s.G.hasEdge e.1 e.2 = true) ∧
    (∀ u v : Nat, s.G.hasEdge u v = false →
      (u, v) ∉ (remove_old_edges s k).2) ∧
    ((∀ en ∈ s.edge_heap, s.G.hasEdge en.2.1 en.2.2 = false) →
      (remove_old_edges s k).1.G = s.G ∧ (remove_old_edges s k).2 = []) := by
  obtain ⟨extra, h1, h2, h3⟩ :=
    removeOldEdgesGo_removed s.edge_heap.length s.G s.edge_heap k []
  have hrem : (remove_old_edges s k).2 = extra := by
    simpa [remove_old_edges] using h1
  refine ⟨by rw [hrem]; exact h2, by rw [hrem]; exact h3, ?_, ?_⟩
  · intro u v hfalse hmem
    rw [hrem] at hmem
    exact absurd (h3 _ hmem) (by simp [hfalse])
  · intro hstale
    obtain ⟨g1, g2⟩ :=
      removeOldEdgesGo_exhausted s.edge_heap.length s.G s.edge_heap k [] hstale
    exact ⟨by simpa [remove_old_edges] using g1, by simpa [remove_old_edges] using g2⟩

/-- A state with a stale heap entry: edge (0, 2) is in the store but no
longer in the graph. -/
def staleState : KGState :=
  { G := { nodes := [0, 1, 2], edges := [(0, 1)] },
    edge_heap := [(0, (0, 2)), (1, (0, 1))],
    current_time := 2 }

theorem c6_stale_entries_tolerated_witness :
    ((0, 2) ∉ (remove_old_edges staleState 5).2) ∧
    (remove_old_edges staleState 5).2.length ≤ 5 ∧
    ((remove_old_edges { staleState with G := { nodes := [0, 1, 2], edges := [] } } 5).1.G
      = { nodes := [0, 1, 2], edges := [] }) := by
  refine ⟨(c6_stale_entries_tolerated staleState 5).2.2.1 0 2 (by decide), ?_, ?_⟩
  · exact (c6_stale_entries_tolerated staleState 5).1
  · exact ((c6_stale_entries_tolerated
      { staleState with G := { nodes := [0, 1, 2], edges := [] } } 5).2.2.2
      (by decide)).1

/-- A Python runtime value as it flows through
KomplettGraph.remove_old_edges in src/CompleteGraph.py: the statement
u, v = self.edge_heap.pop() unpacks a heap entry (timestamp, (a, b)) into
u = timestamp (an int) and v = (a, b) (a tuple), so the subsequent
has_edge and remove_edge calls receive an int and a tuple. -/
inductive PyVal where
  | vInt (n : Nat)
  | vPair (p : Nat × Nat)
deriving DecidableEq, Repr

/-- networkx Graph.has_edge on arbitrary Python values: it tests
membership of v in the adjacency dict of u.  The adjacency structure is
keyed by the integer vertices, so when v is a tuple the membership test is
False, and when u is not a vertex the KeyError is caught and False is
returned.  Only int/int arguments can ever find an edge. -/
def pyHasEdge (G : Graph) : PyVal → PyVal → Bool
  | .vInt a, .vInt b => G.hasEdge a b
  | _, _ => false

/-- networkx Graph.remove_edge on Python values; only reachable through a
successful pyHasEdge test, so the non-int cases (which would raise
NetworkXError in Python) never run. -/
def pyRemoveEdge (G : Graph) : PyVal → PyVal → Graph
  | .vInt a, .vInt b => G.removeEdge a b
  | _, _ => G

/-- KomplettGraph.remove_old_edges of src/CompleteGraph.py lines 190-209:
while the heap is nonempty and fewer than num edges were removed, run
u, v = self.edge_heap.pop() -- list.pop() takes the LAST element of the
heap array and the unpacking puts the timestamp in u and the whole edge
pair in v -- and skip unless self.G.has_edge(u, v).  As for the other
loops, fuel bounds the iterations; each iteration pops one entry, so
heap.length is always enough.  (Which array slot holds the last heap entry
depends on heapq's internal layout; the conclusions drawn below hold for
every layout, because the has_edge test fails for every entry.) -/
def removeOldEdgesCGGo (G : Graph) (heap : List (Nat × (Nat × Nat)))
    (num removed : Nat) : Nat → Graph × List (Nat × (Nat × Nat)) × Nat
  | 0 => (G, heap, removed)
  | fuel + 1 =>
    if heap = [] then (G, heap, removed)
    else if removed < num then
      let en := heap.getLastD (0, (0, 0))
      let heap1 := heap.dropLast
      if pyHasEdge G (PyVal.vInt en.1) (PyVal.vPair en.2) then
        removeOldEdgesCGGo (pyRemoveEdge G (PyVal.vInt en.1) (PyVal.vPair en.2))
          heap1 num (removed + 1) fuel
      else
        removeOldEdgesCGGo G heap1 num removed fuel
    else (G, heap, removed)

def remove_old_edges_CG (s : KGState) (num : Nat) : KGState × Nat :=
  let r := removeOldEdgesCGGo s.G s.edge_heap num 0 s.edge_heap.length
  ({ G := r.1, edge_heap := r.2.1, current_time := s.current_time }, r.2.2)

/-- C2, evaluated at the failing input: on the freshly initialized K_3
engine, where every heap entry is live, asking the CompleteGraph.py
remove_old_edges for one oldest-first removal removes NO edge at all and
silently drains the whole heap, because the popped (timestamp, edge) tuple
is unpacked into has_edge(timestamp, edge_pair), which is never true.  On
the very same state the EdgeOperations.remove_old_edges loop (the intended
semantics, also found in src/k10.py) removes exactly the minimum-timestamp
live edge (0, 1). -/
theorem c2_oldest_first_pop_bug :
    (remove_old_edges_CG (initKG 3) 1).1.G = (initKG 3).G ∧
    (remove_old_edges_CG (initKG 3) 1).1.edge_heap = [] ∧
    (remove_old_edges_CG (initKG 3) 1).2 = 0 ∧
    (remove_old_edges (initKG 3) 1).2 = [(0, 1)] ∧
    (remove_old_edges (initKG 3) 1).1.G.edges = [(0, 2), (1, 2)] := by decide

/-- The drain-without-removing behaviour of the CompleteGraph.py loop is
not special to one input: whatever the graph, heap and requested count,
the mis-unpacked has_edge test never succeeds, so the graph is returned
unchanged. -/
theorem removeOldEdgesCGGo_never_removes (fuel : Nat) :
    ∀ (G : Graph) (heap : List (Nat × (Nat × Nat))) (num removed : Nat),
      (removeOldEdgesCGGo G heap num removed fuel).1 = G ∧
      (removeOldEdgesCGGo G heap num removed fuel).2.2 = removed := by
  induction fuel with
  | zero => intro G heap num removed; exact ⟨rfl, rfl⟩
  | succ fuel ih =>
    intro G heap num removed
    by_cases h0 : heap = []
    · simp [removeOldEdgesCGGo, h0]
    · by_cases h1 : removed < num
      · have hpy : pyHasEdge G (PyVal.vInt (heap.getLastD (0, (0, 0))).1)
            (PyVal.vPair (heap.getLastD (0, (0, 0))).2) = false := rfl
        simp only [removeOldEdgesCGGo, h0, if_neg, h1, if_pos, hpy,
          Bool.false_eq_true, if_false]
        exact ih G heap.dropLast num removed
      · simp [removeOldEdgesCGGo, h0, h1]

/-- KomplettGraph.random_edge_removal (src/CompleteGraph.py lines 211-229;
EdgeOperations.random_edge_removal is the same loop): walk the shuffled
edge list, removing each edge from the graph until num edges are removed
or the list ends.  The shuffled copy produced by random.shuffle is passed
in explicitly. -/
def randomEdgeRemovalGo (num : Nat) : List (Nat × Nat) → Graph → Nat → Graph
  | [], G, _ => G
  | e :: rest, G, removed =>
    if removed ≥ num then G
    else randomEdgeRemovalGo num rest (G.removeEdge e.1 e.2) (removed + 1)

def random_edge_removal (s : KGState) (shuffled : List (Nat × Nat))
    (num : Nat) : KGState :=
  { G := randomEdgeRemovalGo num shuffled s.G 0,
    edge_heap := s.edge_heap,
    current_time := s.current_time }

/-- No two stored edges coincide as unordered pairs (networkx never stores
an edge twice, in either orientation). -/
def UDistinct (l : List (Nat × Nat)) : Prop :=
  l.Pairwise (fun p q => p ≠ q ∧ p ≠ (q.2, q.1))

theorem randomEdgeRemovalGo_eq_foldl (es : List (Nat × Nat)) :
    ∀ (G : Graph) (num removed : Nat),
      randomEdgeRemovalGo num es G removed
        = (es.take (num - removed)).foldl (fun g e => g.removeEdge e.1 e.2) G := by
  induction es with
  | nil => intro G num removed; simp [randomEdgeRemovalGo]
  | cons e rest ih =>
    intro G num removed
    by_cases h : removed ≥ num
    · have : num - removed = 0 := by omega
      simp [randomEdgeRemovalGo, h, this]
    · have hs : num - removed = (num - (removed + 1)) + 1 := by omega
      rw [hs]
      simp only [randomEdgeRemovalGo, h, if_neg, List.take_succ_cons, List.foldl_cons,
        not_false_iff]
      exact ih (G.removeEdge e.1 e.2) num (removed + 1)

theorem uDistinct_symmetric :
    Symmetric (fun p q : Nat × Nat => p ≠ q ∧ p ≠ (q.2, q.1)) := by
  rintro p q ⟨h1, h2⟩
  refine ⟨fun h => h1 h.symm, fun h => h2 ?_⟩
  rw [h]

theorem removeEdge_perm_of_cons {G : Graph} {e : Nat × Nat}
    {rest : List (Nat × Nat)} (hd : UDistinct G.edges)
    (hp : G.edges.Perm (e :: rest)) :
    (G.removeEdge e.1 e.2).edges.Perm rest := by
  have hd2 : UDistinct (e :: rest) := (hp.pairwise_iff (fun h => uDistinct_symmetric h)).mp hd
  rcases List.pairwise_cons.mp hd2 with ⟨he, _⟩
  have hfe : (e :: rest).filter
      (fun p => !(p = (e.1, e.2) ∨ p = (e.2, e.1) : Bool)) = rest := by
    rw [List.filter_cons_of_neg (by simp)]
    refine List.filter_eq_self.mpr ?_
    intro q hq
    obtain ⟨h1, h2⟩ := he q hq
    simp only [Bool.not_eq_true', decide_eq_false_iff_not]
    rintro (rfl | hswap)
    · exact h1 rfl
    · exact h2 (by rw [hswap])
  have hflt := hp.filter (fun p => !(p = (e.1, e.2) ∨ p = (e.2, e.1) : Bool))
  rw [hfe] at hflt
  exact hflt

theorem foldl_removeEdges_perm (shuffled : List (Nat × Nat)) :
    ∀ (k : Nat) (G : Graph), G.edges.Perm shuffled → UDistinct G.edges →
      ((shuffled.take k).foldl (fun g e => g.removeEdge e.1 e.2) G).edges.Perm
          (shuffled.drop k) ∧
        ((shuffled.take k).foldl (fun g e => g.removeEdge e.1 e.2) G).nodes
          = G.nodes := by
  induction shuffled with
  | nil =>
    intro k G hp _
    constructor
    · simpa using hp
    · simp
  | cons e rest ih =>
    intro k G hp hd
    cases k with
    | zero => exact ⟨by simpa using hp, rfl⟩
    | succ k =>
      simp only [List.take_succ_cons, List.foldl_cons, List.drop_succ_cons]
      have hp1 := removeEdge_perm_of_cons hd hp
      have hd1 : UDistinct (G.removeEdge e.1 e.2).edges :=
        List.Pairwise.sublist (List.filter_sublist _) hd
      obtain ⟨g1, g2⟩ := ih k (G.removeEdge e.1 e.2) hp1 hd1
      exact ⟨g1, g2.trans rfl⟩

/-- C8: random_edge_removal removes exactly the first k edges of the
shuffled live edge list from the graph (all of them when fewer than k
exist) and leaves the edge heap, the timestamp counter and the vertex set
untouched. -/
theorem c8_random_removal_frame (s : KGState) (shuffled : List (Nat × Nat))
    (k : Nat) (hperm : s.G.edges.Perm shuffled) (hdist : UDistinct s.G.edges) :
    (random_edge_removal s shuffled k).edge_heap = s.edge_heap ∧
    (random_edge_removal s shuffled k).current_time = s.current_time ∧
    (random_edge_removal s shuffled k).G.nodes = s.G.nodes ∧
    (random_edge_removal s shuffled k).G.edges.Perm (shuffled.drop k) ∧
    (random_edge_removal s shuffled k).G.edges.length
      = s.G.edges.length - min k shuffled.length := by
  have hG : (random_edge_removal s shuffled k).G
      = (shuffled.take k).foldl (fun g e => g.removeEdge e.1 e.2) s.G := by
    show randomEdgeRemovalGo k shuffled s.G 0 = _
    rw [randomEdgeRemovalGo_eq_foldl shuffled s.G k 0, Nat.sub_zero]
  obtain ⟨g1, g2⟩ := foldl_removeEdges_perm shuffled k s.G hperm hdist
  refine ⟨rfl, rfl, by rw [hG]; exact g2, by rw [hG]; exact g1, ?_⟩
  have hlen : (random_edge_removal s shuffled k).G.edges.length
      = (shuffled.drop k).length := by
    rw [hG]
    exact g1.length_eq
  rw [hlen, List.length_drop, hperm.length_eq]
  omega

theorem c8_random_removal_frame_witness :
    (random_edge_removal (initKG 3) [(1, 2), (0, 1), (0, 2)] 2).edge_heap
        = (initKG 3).edge_heap ∧
    (random_edge_removal (initKG 3) [(1, 2), (0, 1), (0, 2)] 2).G.nodes
        = (initKG 3).G.nodes ∧
    (random_edge_removal (initKG 3) [(1, 2), (0, 1), (0, 2)] 2).G.edges.Perm
        [(0, 2)] := by
  obtain ⟨h1, _, h3, h4, _⟩ := c8_random_removal_frame (initKG 3)
    [(1, 2), (0, 1), (0, 2)] 2 (by decide) (by unfold UDistinct; decide)
  exact ⟨h1, h3, h4⟩

/-- Neighbors of v: the other endpoint of every stored edge touching v
(networkx adjacency). -/
def neighborsG (G : Graph) (v : Nat) : List Nat :=
  G.edges.foldr
    (fun p acc => if p.1 = v then p.2 :: acc else if p.2 = v then p.1 :: acc else acc) []

/-- One breadth step of the reachable-set computation backing
nx.connected_components: adjoin every neighbor of the current set. -/
def expandStep (G : Graph) (s : List Nat) : List Nat :=
  (s ++ s.flatMap (neighborsG G)).dedup

/-- All vertices reachable from v.  Iterating the expansion once per node
of the graph reaches a fixpoint, since each productive step adds at least
one new vertex. -/
def reachSet (G : Graph) (v : Nat) : List Nat :=
  (expandStep G)^[G.nodes.length] [v]

def componentsGo (G : Graph) : List Nat → List Nat → List (List Nat)
  | [], _ => []
  | v :: rest, vis =>
    if v ∈ vis then componentsGo G rest vis
    else reachSet G v :: componentsGo G rest (vis ++ reachSet G v)

/-- nx.connected_components: one vertex set per component, discovered in
node order. -/
def connected_components (G : Graph) : List (List Nat) :=
  componentsGo G G.nodes []

/-- Edge count of the subgraph induced by a component (networkx
subgraph(component).number_of_edges()). -/
def edgesWithin (G : Graph) (c : List Nat) : Nat :=
  G.edges.countP (fun p => decide (p.1 ∈ c) && decide (p.2 ∈ c))

/-- The max_density loop of BaseGraph.arboricity (src/graph/base_graph.py
lines 23-33, identical in src/CompleteGraph.py lines 64-87 and src/k10.py):
for each connected component with more than one vertex, accumulate the
maximum of edges/(vertices-1).  Python computes the ratio in floating
point; it is embedded as the exact rational, which agrees with the float
at every graph size the engine reaches. -/
def maxDensity (G : Graph) : ℚ :=
  (connected_components G).foldl
    (fun m c =>
      if 1 < c.length then
        max m ((edgesWithin G c : ℚ) / ((c.length - 1 : Nat) : ℚ))
      else m) 0

/-- BaseGraph.arboricity: int(max_density); max_density is nonnegative, so
the int() truncation is the floor. -/
def arboricity (G : Graph) : Nat := Nat.floor (maxDensity G)

theorem mem_neighborsG {G : Graph} {v w : Nat} :
    w ∈ neighborsG G v ↔ (v, w) ∈ G.edges ∨ (w, v) ∈ G.edges := by
  unfold neighborsG
  induction G.edges with
  | nil => simp
  | cons p rest ih =>
    obtain ⟨a, b⟩ := p
    simp only [List.foldr_cons, List.mem_cons, Prod.mk.injEq]
    by_cases h1 : a = v
    · rw [if_pos h1]
      simp only [List.mem_cons, ih]
      constructor
      · rintro (rfl | h | h)
        · exact Or.inl (Or.inl ⟨h1.symm, rfl⟩)
        · exact Or.inl (Or.inr h)
        · exact Or.inr (Or.inr h)
      · rintro ((⟨hva, hwb⟩ | h) | (⟨hwa, hvb⟩ | h))
        · exact Or.inl hwb
        · exact Or.inr (Or.inl h)
        · exact Or.inl (hwa.trans (h1.trans hvb))
        · exact Or.inr (Or.inr h)
    · rw [if_neg h1]
      by_cases h2 : b = v
      · rw [if_pos h2]
        simp only [List.mem_cons, ih]
        constructor
        · rintro (rfl | h | h)
          · exact Or.inr (Or.inl ⟨rfl, h2.symm⟩)
          · exact Or.inl (Or.inr h)
          · exact Or.inr (Or.inr h)
        · rintro ((⟨hva, hwb⟩ | h) | (⟨hwa, hvb⟩ | h))
          · exact absurd hva.symm h1
          · exact Or.inr (Or.inl h)
          · exact Or.inl hwa
          · exact Or.inr (Or.inr h)
      · rw [if_neg h2]
        rw [ih]
        constructor
        · rintro (h | h)
          · exact Or.inl (Or.inr h)
          · exact Or.inr (Or.inr h)
        · rintro ((⟨hva, hwb⟩ | h) | (⟨hwa, hvb⟩ | h))
          · exact absurd hva.symm h1
          · exact Or.inl h
          · exact absurd hvb.symm h2
          · exact Or.inr h

theorem mem_neighborsG_complete {n v w : Nat} (hv : v < n) :
    w ∈ neighborsG (complete_graph n) v ↔ w < n ∧ w ≠ v := by
  rw [mem_neighborsG]
  show (v, w) ∈ completeEdges n ∨ (w, v) ∈ completeEdges n ↔ _
  rw [mem_completeEdges, mem_completeEdges]
  omega

theorem mem_expandStep {G : Graph} {s : List Nat} {x : Nat} :
    x ∈ expandStep G s ↔ x ∈ s ∨ ∃ y ∈ s, x ∈ neighborsG G y := by
  simp [expandStep, List.mem_dedup, List.mem_flatMap]

theorem mem_iterate_expand {G : Graph} {x : Nat} (m : Nat) :
    ∀ {s : List Nat}, x ∈ s → x ∈ (expandStep G)^[m] s := by
  induction m with
  | zero => intro s h; simpa using h
  | succ m ih =>
    intro s h
    rw [Function.iterate_succ_apply]
    exact ih (mem_expandStep.mpr (Or.inl h))

theorem iterate_expand_subset {G : Graph} {n : Nat}
    (hE : ∀ y x : Nat, x ∈ neighborsG G y → x < n) (m : Nat) :
    ∀ s : List Nat, (∀ x ∈ s, x < n) → ∀ x ∈ (expandStep G)^[m] s, x < n := by
  induction m with
  | zero => intro s hs; simpa using hs
  | succ m ih =>
    intro s hs
    rw [Function.iterate_succ_apply]
    refine ih _ ?_
    intro x hx
    rcases mem_expandStep.mp hx with h | ⟨y, _, h⟩
    · exact hs x h
    · exact hE y x h

theorem reachSet_complete_mem {n : Nat} (hn : 2 ≤ n) {x : Nat} :
    x ∈ reachSet (complete_graph n) 0 ↔ x < n := by
  constructor
  · intro hx
    refine iterate_expand_subset (G := complete_graph n) (n := n) ?_ _ [0] ?_ x hx
    · intro y z hz
      rcases mem_neighborsG.mp hz with h | h
      · exact (mem_completeEdges.mp h).2
      · have := mem_completeEdges.mp h
        omega
    · intro z hz
      simp only [List.mem_singleton] at hz
      omega
  · intro hx
    have hlen : (complete_graph n).nodes.length = n := by simp [complete_graph]
    unfold reachSet
    rw [hlen]
    obtain ⟨m, rfl⟩ : ∃ m, n = m + 1 := ⟨n - 1, by omega⟩
    rw [Function.iterate_succ_apply]
    apply mem_iterate_expand
    by_cases hx0 : x = 0
    · exact mem_expandStep.mpr (Or.inl (by simp [hx0]))
    · refine mem_expandStep.mpr (Or.inr ⟨0, by simp, ?_⟩)
      exact (mem_neighborsG_complete (by omega)).mpr ⟨hx, hx0⟩

theorem reachSet_complete_nodup {n : Nat} (hn : 2 ≤ n) :
    (reachSet (complete_graph n) 0).Nodup := by
  unfold reachSet
  have hlen : (complete_graph n).nodes.length = n := by simp [complete_graph]
  rw [hlen]
  obtain ⟨m, rfl⟩ : ∃ m, n = m + 1 := ⟨n - 1, by omega⟩
  rw [Function.iterate_succ_apply']
  exact List.nodup_dedup _

theorem reachSet_complete_length {n : Nat} (hn : 2 ≤ n) :
    (reachSet (complete_graph n) 0).length = n := by
  have hnd := reachSet_complete_nodup hn
  have hfin : (reachSet (complete_graph n) 0).toFinset = Finset.range n := by
    ext x
    simp [List.mem_toFinset, reachSet_complete_mem hn, Finset.mem_range]
  rw [← List.toFinset_card_of_nodup hnd, hfin, Finset.card_range]

theorem componentsGo_nil_of_visited {G : Graph} :
    ∀ (l vis : List Nat), (∀ v ∈ l, v ∈ vis) → componentsGo G l vis = [] := by
  intro l
  induction l with
  | nil => intro vis _; rfl
  | cons v rest ih =>
    intro vis h
    have hv : v ∈ vis := h v (by simp)
    simp only [componentsGo, hv, if_pos]
    exact ih vis (fun x hx => h x (List.mem_cons_of_mem _ hx))

theorem components_complete {n : Nat} (hn : 2 ≤ n) :
    connected_components (complete_graph n) = [reachSet (complete_graph n) 0] := by
  unfold connected_components
  obtain ⟨m, rfl⟩ : ∃ m, n = m + 1 := ⟨n - 1, by omega⟩
  show componentsGo _ (List.range (m + 1)) [] = _
  rw [List.range_succ_eq_map]
  show (if (0 : Nat) ∈ ([] : List Nat) then _ else _) = _
  rw [if_neg (List.not_mem_nil 0)]
  congr 1
  apply componentsGo_nil_of_visited
  intro v hv
  simp only [List.mem_map, List.mem_range] at hv
  obtain ⟨a, ha, rfl⟩ := hv
  refine List.mem_append.mpr (Or.inr ?_)
  exact (reachSet_complete_mem hn).mpr (by omega)

theorem edgesWithin_complete {n : Nat} (hn : 2 ≤ n) :
    edgesWithin (complete_graph n) (reachSet (complete_graph n) 0)
      = (completeEdges n).length := by
  unfold edgesWithin
  refine List.countP_eq_length.mpr ?_
  intro p hp
  have hb : p.1 < p.2 ∧ p.2 < n := mem_completeEdges.mp hp
  simp only [Bool.and_eq_true, decide_eq_true_eq]
  exact ⟨(reachSet_complete_mem hn).mpr (by omega),
    (reachSet_complete_mem hn).mpr (by omega)⟩

theorem natFloor_max (a b : ℚ) :
    Nat.floor (max a b) = max (Nat.floor a) (Nat.floor b) := by
  rcases le_total a b with h | h
  · rw [max_eq_right h, max_eq_right (Nat.floor_mono h)]
  · rw [max_eq_left h, max_eq_left (Nat.floor_mono h)]

theorem natFloor_edge_div (e m : Nat) :
    Nat.floor ((e : ℚ) / ((m : Nat) : ℚ)) = e / m := by
  rw [Nat.floor_div_nat, Nat.floor_natCast]

theorem maxDensity_complete {n : Nat} (hn : 2 ≤ n) :
    maxDensity (complete_graph n)
      = ((completeEdges n).length : ℚ) / ((n - 1 : Nat) : ℚ) := by
  unfold maxDensity
  rw [components_complete hn]
  simp only [List.foldl_cons, List.foldl_nil]
  rw [reachSet_complete_length hn, edgesWithin_complete hn, if_pos (by omega)]
  exact max_eq_right (div_nonneg (Nat.cast_nonneg _) (Nat.cast_nonneg _))

theorem arboricity_complete {n : Nat} (hn : 2 ≤ n) :
    arboricity (complete_graph n) = n / 2 := by
  unfold arboricity
  rw [maxDensity_complete hn, natFloor_edge_div]
  have h2 := completeEdges_length n
  rcases Nat.even_or_odd n with ⟨t, ht⟩ | ⟨t, ht⟩
  · have hm : (completeEdges n).length = t * (n - 1) := by
      have hnt : n * (n - 1) = 2 * (t * (n - 1)) := by
        generalize n - 1 = A
        rw [ht]
        ring
      omega
    rw [hm, Nat.mul_div_cancel _ (by omega : 0 < n - 1)]
    omega
  · have hm : (completeEdges n).length = (n - 1) * t + t := by
      have hnt : n * (n - 1) = 2 * ((n - 1) * t + t) := by
        have hsub : n - 1 = 2 * t := by omega
        rw [hsub, ht]
        ring
      omega
    rw [hm, Nat.mul_add_div (by omega : 0 < n - 1),
      Nat.div_eq_of_lt (by omega : t < n - 1)]
    omega

theorem floor_density_foldl (G : Graph) :
    ∀ (comps : List (List Nat)) (q : ℚ) (m : Nat), Nat.floor q = m →
      Nat.floor (comps.foldl
        (fun acc c => if 1 < c.length then
            max acc ((edgesWithin G c : ℚ) / ((c.length - 1 : Nat) : ℚ))
          else acc) q)
        = comps.foldl
            (fun acc c => if 1 < c.length then
                max acc (edgesWithin G c / (c.length - 1))
              else acc) m := by
  intro comps
  induction comps with
  | nil => intro q m h; simpa using h
  | cons c rest ih =>
    intro q m h
    simp only [List.foldl_cons]
    by_cases hc : 1 < c.length
    · rw [if_pos hc, if_pos hc]
      refine ih _ _ ?_
      rw [natFloor_max, natFloor_edge_div, h]
    · rw [if_neg hc, if_neg hc]
      exact ih q m h

/-- C7: the arboricity estimate is the floor of the maximum over
components with more than one vertex of edges/(vertices-1) (a natural
number, with size-1 components contributing nothing); a connected graph
with v vertices and v-1 edges (a tree) gets estimate 1; and the complete
graph K_n with n at least 2 gets estimate n/2 rounded down. -/
theorem c7_arboricity_estimate :
    (∀ G : Graph, arboricity G
        = (connected_components G).foldl
            (fun acc c => if 1 < c.length then
                max acc (edgesWithin G c / (c.length - 1))
              else acc) 0) ∧
    (∀ (G : Graph) (c : List Nat), connected_components G = [c] →
        2 ≤ c.length → edgesWithin G c = c.length - 1 → arboricity G = 1) ∧
    (∀ n : Nat, 2 ≤ n → arboricity (complete_graph n) = n / 2) := by
  refine ⟨?_, ?_, fun n hn => arboricity_complete hn⟩
  · intro G
    unfold arboricity maxDensity
    exact floor_density_foldl G (connected_components G) 0 0 (by simp)
  · intro G c hcomp hlen hedge
    unfold arboricity maxDensity
    rw [hcomp]
    simp only [List.foldl_cons, List.foldl_nil]
    rw [if_pos (by omega), hedge]
    have hne : (((c.length - 1 : Nat) : ℚ)) ≠ 0 := by
      have : 0 < c.length - 1 := by omega
      exact_mod_cast Nat.pos_iff_ne_zero.mp this
    rw [div_self hne, max_eq_right (by norm_num : (0 : ℚ) ≤ 1)]
    simp

/-- A path on three vertices: a tree with one component. -/
def pathG : Graph := { nodes := [0, 1, 2], edges := [(0, 1), (1, 2)] }

theorem c7_arboricity_estimate_witness :
    arboricity pathG = 1 ∧ arboricity (complete_graph 4) = 2 := by
  constructor
  · exact c7_arboricity_estimate.2.1 pathG [0, 2, 1] (by decide) (by decide) (by decide)
  · exact c7_arboricity_estimate.2.2 4 (by norm_num)

/-- networkx degree: number of stored edges touching v. -/
def degree (G : Graph) (v : Nat) : Nat :=
  G.edges.countP (fun p => decide (p.1 = v) || decide (p.2 = v))

/-- Stable insertion for descending-degree order: x goes before the first
element whose degree is not larger, so ties keep their original relative
order, exactly like Python's stable sorted(..., reverse=True). -/
def insertByDegDesc (G : Graph) (x : Nat) : List Nat → List Nat
  | [] => [x]
  | y :: ys => if degree G x < degree G y then y :: insertByDegDesc G x ys
               else x :: y :: ys

/-- The largest_first node order of nx.coloring.greedy_color: nodes sorted
by degree, largest first, stable. -/
def sortByDegDesc (G : Graph) (l : List Nat) : List Nat :=
  l.foldr (insertByDegDesc G) []

/-- Smallest color index not used by any already-colored neighbor
(itertools.count() scan in networkx greedy_color; some free color always
exists among 0..used.length). -/
def firstFreeColor (used : List Nat) : Nat :=
  (((List.range (used.length + 1)).filter (fun c => decide (c ∉ used)))).headD 0

def greedyColorGo (G : Graph) : List Nat → List (Nat × Nat) → List (Nat × Nat)
  | [], colors => colors
  | v :: rest, colors =>
    let nbrColors := (neighborsG G v).filterMap (fun w => colors.lookup w)
    greedyColorGo G rest (colors ++ [(v, firstFreeColor nbrColors)])

/-- nx.coloring.greedy_color(G, strategy="largest_first"): color nodes in
descending-degree order, giving each the smallest color absent from its
colored neighbors. -/
def greedy_color (G : Graph) : List (Nat × Nat) :=
  greedyColorGo G (sortByDegDesc G G.nodes) []

/-- BaseGraph.chromatic_number (src/graph/base_graph.py lines 18-21, also
src/CompleteGraph.py lines 50-61): max color + 1, or 1 for the empty
coloring. -/
def chromatic_number (G : Graph) : Nat :=
  match greedy_color G with
  | [] => 1
  | coloring => (coloring.map Prod.snd).foldl max 0 + 1

/-- State of the KomplettGraph of src/graph/komplett_graph.py.  The edge
store lives on the EdgeOperations helper (self.edge_ops.edge_heap and
self.edge_ops.current_time).  The class nowhere defines self.edge_heap or
self.current_time; the revert branches of add_edge assign to those two
fresh attributes, which nothing else ever reads.  They are modelled as the
two dead_ fields, absent (none) until such an assignment happens. -/
structure KG2State where
  G : Graph
  ops_heap : List (Nat × (Nat × Nat))
  ops_time : Nat
  dead_edge_heap : Option (List (Nat × (Nat × Nat)))
  dead_current_time : Option Nat
deriving DecidableEq, Repr

/-- KomplettGraph.__init__ of src/graph/komplett_graph.py lines 22-28. -/
def initKG2 (k : Nat) : KG2State :=
  let G := complete_graph k
  let heap := G.edges.map (fun e => (0, e))
  { G := G, ops_heap := heap, ops_time := heap.length,
    dead_edge_heap := none, dead_current_time := none }

def toKG (s : KG2State) : KGState :=
  { G := s.G, edge_heap := s.ops_heap, current_time := s.ops_time }

def ofKG (s : KG2State) (t : KGState) : KG2State :=
  { s with G := t.G, ops_heap := t.edge_heap, ops_time := t.current_time }

inductive Policy where
  | old
  | random
deriving DecidableEq, Repr

/-- KomplettGraph.add_edge of src/graph/komplett_graph.py lines 31-64:
snapshot, add the new node, attach edges, apply the removal policy, then
check the chromatic number against the original and the arboricity
estimate against the ceiling 9.  On a violation the code assigns
self.G = original_graph (restoring the graph) but then assigns
self.edge_heap = original_heap and self.current_time = original_time,
two attributes that are NOT the store (self.edge_ops.edge_heap /
self.edge_ops.current_time), so the store keeps its mutated contents. -/
def add_edge (s : KG2State) (step : Nat) (chromOrig : Nat) (policy : Policy)
    (numAdd numRemove : Nat) (sample : List Nat)
    (shuffled : List (Nat × Nat)) : (Bool × Option String) × KG2State :=
  let origG := s.G
  let origHeap := s.ops_heap
  let origTime := s.ops_time
  let newNode := s.G.numberOfNodes
  let s1 := { s with G := s.G.addNode newNode }
  let s2 := ofKG s1 (addNewEdges (toKG s1) newNode (some numAdd) sample)
  let s3 :=
    match policy with
    | .old => ofKG s2 (remove_old_edges (toKG s2) numRemove).1
    | .random => ofKG s2 (random_edge_removal (toKG s2) shuffled numRemove)
  let chrom := chromatic_number s3.G
  if chrom ≠ chromOrig then
    ((false, some ("Chromatic number not " ++ toString chromOrig
        ++ " at step " ++ toString step)),
      { s3 with G := origG, dead_edge_heap := some origHeap,
                dead_current_time := some origTime })
  else if arboricity s3.G > 9 then
    ((false, some ("Arboricity reached 9 at step " ++ toString step)),
      { s3 with G := origG, dead_edge_heap := some origHeap,
                dead_current_time := some origTime })
  else ((true, none), s3)

/-- The concrete rejected step showing the revert slip: start from K_3
(chromatic number 3), add node 3 attached to all three existing vertices,
remove nothing; the greedy chromatic number becomes 4, the step is
rejected. -/
def c1Run : (Bool × Option String) × KG2State :=
  add_edge (initKG2 3) 1 (chromatic_number (initKG2 3).G) .old 3 0 [] []

/-- C1, evaluated at the failing input: the rejected step reports failure
with a message naming the step and restores the Graph, but the
EdgeAgingStore is NOT restored: the edge_ops heap keeps the three pushed
entries (6 instead of 3) and the edge_ops counter stays at 6 instead of 3.
The snapshot values end up in the two write-only attributes the revert
created instead. -/
theorem c1_rejected_step_leaves_store_mutated :
    c1Run.1 = (false, some "Chromatic number not 3 at step 1") ∧
    c1Run.2.G = (initKG2 3).G ∧
    c1Run.2.ops_heap ≠ (initKG2 3).ops_heap ∧
    c1Run.2.ops_heap.length = 6 ∧
    (initKG2 3).ops_heap.length = 3 ∧
    c1Run.2.ops_time = 6 ∧
    (initKG2 3).ops_time = 3 ∧
    c1Run.2.dead_edge_heap = some (initKG2 3).ops_heap ∧
    c1Run.2.dead_current_time = some (initKG2 3).ops_time := by
  refine ⟨by decide, by decide, by decide, by decide, by decide, by decide,
    by decide, by decide, by decide⟩

/-- The mutable state of one ThicknessCalculator run: the NUMBER array
(0 = unvisited), the tree-arc and frond lists, and the numbering
counter. -/
structure DfsState where
  number : List Nat
  tree_arcs : List (Nat × Nat)
  fronds : List (Nat × Nat)
  counter : Nat
deriving DecidableEq, Repr

/-- NUMBER[i], with the out-of-range default 0 (never hit on the calls the
classifier makes). -/
def getN (s : DfsState) (i : Nat) : Nat := s.number.getD i 0

/-- The neighbor loop of thickness_dfs, abstracted over the recursive
call: for w in adj[v], an unnumbered w yields a tree arc and a recursive
descent, a numbered w with a smaller number than v that is not the parent
yields a frond, anything else is skipped. -/
def dfsLoopF (dfs : Nat → Int → DfsState → DfsState) (v : Nat) (u : Int) :
    List Nat → DfsState → DfsState
  | [], s => s
  | w :: rest, s =>
    if getN s w = 0 then
      dfsLoopF dfs v u rest
        (dfs w (v : Int) { s with tree_arcs := s.tree_arcs ++ [(v, w)] })
    else if getN s w < getN s v ∧ (w : Int) ≠ u then
      dfsLoopF dfs v u rest { s with fronds := s.fronds ++ [(v, w)] }
    else
      dfsLoopF dfs v u rest s

/-- ThicknessCalculator.thickness_dfs (src/graph/thickness.py lines 4-24,
identical in src/CompleteGraph.py lines 90-136 and src/k10.py lines
158-204): assign v the next number, then classify its adjacency.  Python's
recursion is unbounded; here fuel bounds the recursion depth.  Every
nested call numbers a previously unnumbered vertex on entry, so the depth
never exceeds the number of unnumbered vertices and the fuel of n that
check_thickness passes is never exhausted (made precise below). -/
def thickness_dfs (adj : Nat → List Nat) : Nat → Nat → Int → DfsState → DfsState
  | 0, _, _, s => s
  | fuel + 1, v, u, s =>
    dfsLoopF (thickness_dfs adj fuel) v u (adj v)
      { s with counter := s.counter + 1, number := s.number.set v (s.counter + 1) }

/-- The driver loop of check_thickness: run thickness_dfs from every still
unnumbered node, in node order, threading the counter. -/
def checkLoop (adj : Nat → List Nat) (n : Nat) : List Nat → DfsState → DfsState
  | [], s => s
  | node :: rest, s =>
    if getN s node = 0 then checkLoop adj n rest (thickness_dfs adj n node (-1) s)
    else checkLoop adj n rest s

/-- ThicknessCalculator.check_thickness (src/graph/thickness.py lines
26-40, identical in src/CompleteGraph.py lines 139-160 and k10.py
perform_dfs_numbering): NUMBER = [0]*n, run the DFS from every unvisited
node of 0..n-1, return the final state (check_thickness itself returns
its counter). -/
def check_thickness_full (n : Nat) (adj : Nat → List Nat) : DfsState :=
  checkLoop adj n (List.range n)
    { number := List.replicate n 0, tree_arcs := [], fronds := [], counter := 0 }

def check_thickness (n : Nat) (adj : Nat → List Nat) : Nat :=
  (check_thickness_full n adj).counter

/-- The networkx adjacency list of a Graph, as used by the
adj = {node: list(G[node])} dict built in check_thickness. -/
def adjOf (G : Graph) : Nat → List Nat := fun v => neighborsG G v

def check_thickness_graph (G : Graph) : Nat :=
  check_thickness G.nodes.length (adjOf G)

/-- Number of unnumbered slots of the NUMBER array. -/
def Zval (s : DfsState) : Nat := s.number.countP (fun x => decide (x = 0))

/-- The state invariant of a classifier run: the NUMBER array keeps its
length, every number is at most the counter, the counter equals the
number of numbered vertices, and no two vertices share a nonzero
number. -/
structure DfsInv (n : Nat) (s : DfsState) : Prop where
  len : s.number.length = n
  bound : ∀ i, i < n → getN s i ≤ s.counter
  cnt : s.number.countP (fun x => decide (x ≠ 0)) = s.counter
  inj : ∀ i, i < n → ∀ j, j < n → getN s i = getN s j → getN s i = 0 ∨ i = j

/-- The composable part of what one classifier call does to the state:
numbers are never overwritten, fresh numbers exceed the starting counter,
the counter does not decrease, the array length is fixed. -/
structure DfsStep (n : Nat) (s s' : DfsState) : Prop where
  mono : ∀ i, getN s i ≠ 0 → getN s' i = getN s i
  newBig : ∀ i, i < n → getN s i = 0 → getN s' i = 0 ∨ s.counter < getN s' i
  cmono : s.counter ≤ s'.counter
  len : s'.number.length = s.number.length

theorem DfsStep.refl {n : Nat} {s : DfsState} : DfsStep n s s :=
  ⟨fun _ _ => rfl, fun _ _ h => Or.inl h, le_refl _, rfl⟩

theorem DfsStep.trans {n : Nat} {s s1 s' : DfsState}
    (a : DfsStep n s s1) (b : DfsStep n s1 s') : DfsStep n s s' := by
  refine ⟨?_, ?_, a.cmono.trans b.cmono, b.len.trans a.len⟩
  · intro i h
    rw [b.mono i (by rw [a.mono i h]; exact h), a.mono i h]
  · intro i hi h
    rcases a.newBig i hi h with h1 | h1
    · rcases b.newBig i hi h1 with h2 | h2
      · exact Or.inl h2
      · exact Or.inr (lt_of_le_of_lt a.cmono h2)
    · have := b.mono i (by omega)
      omega

/-- A change that touches only the record lists is a DfsStep. -/
theorem DfsStep.ofRecords {n : Nat} (s t : DfsState)
    (hnum : t.number = s.number) (hc : t.counter = s.counter) :
    DfsStep n s t := by
  refine ⟨?_, ?_, by omega, by rw [hnum]⟩
  · intro i _
    show t.number.getD i 0 = s.number.getD i 0
    rw [hnum]
  · intro i _ h
    refine Or.inl ?_
    show t.number.getD i 0 = 0
    rw [hnum]
    exact h

theorem getD_set_self : ∀ (l : List Nat) (i c : Nat), i < l.length →
    (l.set i c).getD i 0 = c := by
  intro l
  induction l with
  | nil => intro i c h; simp at h
  | cons a t ih =>
    intro i c h
    cases i with
    | zero => rfl
    | succ j =>
      simp only [List.set_cons_succ, List.getD_cons_succ]
      exact ih j c (by simpa using h)

theorem getD_set_ne : ∀ (l : List Nat) (i j c : Nat), j ≠ i →
    (l.set i c).getD j 0 = l.getD j 0 := by
  intro l
  induction l with
  | nil => intro i j c _; rfl
  | cons a t ih =>
    intro i j c h
    cases i with
    | zero =>
      cases j with
      | zero => exact absurd rfl h
      | succ j2 => rfl
    | succ i2 =>
      cases j with
      | zero => rfl
      | succ j2 =>
        simp only [List.set_cons_succ, List.getD_cons_succ]
        exact ih i2 j2 c (by omega)

theorem countP_set (p : Nat → Bool) : ∀ (l : List Nat) (i c : Nat), i < l.length →
    (l.set i c).countP p + (if p (l.getD i 0) then 1 else 0)
      = l.countP p + (if p c then 1 else 0) := by
  intro l
  induction l with
  | nil => intro i c h; simp at h
  | cons a t ih =>
    intro i c h
    cases i with
    | zero =>
      simp only [List.set_cons_zero, List.getD_cons_zero, List.countP_cons]
      by_cases hpa : p a <;> by_cases hpc : p c <;> simp [hpa, hpc] <;> omega
    | succ j =>
      simp only [List.set_cons_succ, List.getD_cons_succ, List.countP_cons]
      have := ih j c (by simpa using h)
      omega

theorem countP_pos_of_getD (p : Nat → Bool) : ∀ (l : List Nat) (i : Nat),
    i < l.length → p (l.getD i 0) = true → 0 < l.countP p := by
  intro l
  induction l with
  | nil => intro i h; simp at h
  | cons a t ih =>
    intro i h hp
    cases i with
    | zero =>
      simp only [List.getD_cons_zero] at hp
      simp [List.countP_cons, hp]
    | succ j =>
      simp only [List.getD_cons_succ] at hp
      have := ih j (by simpa using h) hp
      simp only [List.countP_cons]
      omega

theorem countP_le_pointwise (p : Nat → Bool) : ∀ (l l' : List Nat),
    l.length = l'.length →
    (∀ i, p (l'.getD i 0) = true → p (l.getD i 0) = true) →
    l'.countP p ≤ l.countP p := by
  intro l
  induction l with
  | nil =>
    intro l' h _
    have : l' = [] := List.length_eq_zero.mp h.symm
    simp [this]
  | cons a t ih =>
    intro l' h hp
    cases l' with
    | nil => simp
    | cons b t2 =>
      simp only [List.countP_cons]
      have h0 := hp 0
      simp only [List.getD_cons_zero] at h0
      have ht := ih t2 (by simpa using h) (fun i => by
        have := hp (i + 1)
        simpa only [List.getD_cons_succ] using this)
      by_cases hb : p b
      · rw [hb, if_pos rfl]
        rw [h0 hb, if_pos rfl]
        omega
      · simp only [hb, Bool.false_eq_true, if_false]
        omega

theorem Zval_le_of_step {n : Nat} {s s' : DfsState} (h : DfsStep n s s') :
    Zval s' ≤ Zval s := by
  refine countP_le_pointwise _ s.number s'.number h.len.symm ?_
  intro i hp
  simp only [decide_eq_true_eq] at hp ⊢
  by_contra hne
  have := h.mono i hne
  unfold getN at this
  omega

theorem Zval_pos {n : Nat} {s : DfsState} (hlen : s.number.length = n)
    {v : Nat} (hv : v < n) (h0 : getN s v = 0) : 0 < Zval s := by
  refine countP_pos_of_getD _ s.number v (by omega) ?_
  simp only [decide_eq_true_eq]
  exact h0

/-- What one completed thickness_dfs call guarantees: a DfsStep, the
invariant, v freshly numbered with the successor of the starting counter,
and closure: every vertex numbered during the call has all its neighbors
numbered by the end. -/
structure DfsPostD (n : Nat) (adj : Nat → List Nat) (s s' : DfsState)
    (v : Nat) : Prop where
  step : DfsStep n s s'
  inv : DfsInv n s'
  markv : getN s' v = s.counter + 1
  closure : ∀ a, a < n → getN s a = 0 → getN s' a ≠ 0 →
    ∀ b ∈ adj a, getN s' b ≠ 0

/-- What one completed neighbor loop guarantees: a DfsStep, the invariant,
every listed neighbor numbered at the end, and the same closure. -/
structure DfsPostL (n : Nat) (adj : Nat → List Nat) (s s' : DfsState)
    (ws : List Nat) : Prop where
  step : DfsStep n s s'
  inv : DfsInv n s'
  wsVisited : ∀ w ∈ ws, getN s' w ≠ 0
  closure : ∀ a, a < n → getN s a = 0 → getN s' a ≠ 0 →
    ∀ b ∈ adj a, getN s' b ≠ 0

theorem dfsLoopF_post {n : Nat} {adj : Nat → List Nat} {B : Nat}
    {dfs : Nat → Int → DfsState → DfsState}
    (Hdfs : ∀ (w : Nat) (u' : Int) (t : DfsState), DfsInv n t → w < n →
      getN t w = 0 → Zval t ≤ B → DfsPostD n adj t (dfs w u' t) w) :
    ∀ (ws : List Nat) (v : Nat) (u : Int) (s : DfsState),
      DfsInv n s → v < n → getN s v ≠ 0 → Zval s ≤ B → (∀ w ∈ ws, w < n) →
      DfsPostL n adj s (dfsLoopF dfs v u ws s) ws := by
  intro ws
  induction ws with
  | nil =>
    intro v u s hinv _ _ _ _
    exact ⟨DfsStep.refl, hinv, by simp, fun a _ h0 hne => absurd h0 hne⟩
  | cons w rest ih =>
    intro v u s hinv hv hvnz hZ hws
    have hwn : w < n := hws w (List.mem_cons_self w rest)
    have hrest : ∀ x ∈ rest, x < n := fun x hx => hws x (List.mem_cons_of_mem _ hx)
    show DfsPostL n adj s (dfsLoopF dfs v u (w :: rest) s) (w :: rest)
    by_cases h0 : getN s w = 0
    · rw [dfsLoopF, if_pos h0]
      have hinvt : DfsInv n { s with tree_arcs := s.tree_arcs ++ [(v, w)] } :=
        ⟨hinv.len, hinv.bound, hinv.cnt, hinv.inj⟩
      have hpd := Hdfs w v _ hinvt hwn h0 hZ
      have hv2 : getN (dfs w (v : Int)
          { s with tree_arcs := s.tree_arcs ++ [(v, w)] }) v ≠ 0 := by
        rw [hpd.step.mono v hvnz]
        exact hvnz
      have hZ2 := le_trans (Zval_le_of_step hpd.step) hZ
      have hpl := ih v u _ hpd.inv hv hv2 hZ2 hrest
      refine ⟨((DfsStep.ofRecords s
        { s with tree_arcs := s.tree_arcs ++ [(v, w)] } rfl rfl).trans
          hpd.step).trans hpl.step,
        hpl.inv, ?_, ?_⟩
      · intro x hx
        rcases List.mem_cons.mp hx with rfl | hx
        · have hm : getN (dfs x (v : Int)
              { s with tree_arcs := s.tree_arcs ++ [(v, x)] }) x ≠ 0 := by
            rw [hpd.markv]
            omega
          rw [hpl.step.mono x hm]
          exact hm
        · exact hpl.wsVisited x hx
      · intro a ha h0a hnea b hb
        by_cases h2a : getN (dfs w (v : Int)
            { s with tree_arcs := s.tree_arcs ++ [(v, w)] }) a = 0
        · exact hpl.closure a ha h2a hnea b hb
        · have hcb := hpd.closure a ha h0a h2a b hb
          rw [hpl.step.mono b hcb]
          exact hcb
    · rw [dfsLoopF, if_neg h0]
      by_cases h1 : getN s w < getN s v ∧ (w : Int) ≠ u
      · rw [if_pos h1]
        have hinvf : DfsInv n { s with fronds := s.fronds ++ [(v, w)] } :=
          ⟨hinv.len, hinv.bound, hinv.cnt, hinv.inj⟩
        have hpl := ih v u _ hinvf hv hvnz hZ hrest
        refine ⟨(DfsStep.ofRecords s
          { s with fronds := s.fronds ++ [(v, w)] } rfl rfl).trans
            hpl.step, hpl.inv, ?_, ?_⟩
        · intro x hx
          rcases List.mem_cons.mp hx with rfl | hx
          · rw [hpl.step.mono x h0]
            exact h0
          · exact hpl.wsVisited x hx
        · intro a ha h0a hnea b hb
          exact hpl.closure a ha h0a hnea b hb
      · rw [if_neg h1]
        have hpl := ih v u s hinv hv hvnz hZ hrest
        refine ⟨hpl.step, hpl.inv, ?_, hpl.closure⟩
        intro x hx
        rcases List.mem_cons.mp hx with rfl | hx
        · rw [hpl.step.mono x h0]
          exact h0
        · exact hpl.wsVisited x hx

theorem thickness_dfs_post {n : Nat} {adj : Nat → List Nat}
    (HW : ∀ v, v < n → ∀ w ∈ adj v, w < n) :
    ∀ (fuel v : Nat) (u : Int) (s : DfsState),
      DfsInv n s → v < n → getN s v = 0 → Zval s ≤ fuel →
      DfsPostD n adj s (thickness_dfs adj fuel v u s) v := by
  intro fuel
  induction fuel with
  | zero =>
    intro v u s hinv hv h0 hZ
    have := Zval_pos hinv.len hv h0
    omega
  | succ fuel ih =>
    intro v u s hinv hv h0 hZ
    have hvlen : v < s.number.length := by rw [hinv.len]; exact hv
    have h0d : s.number.getD v 0 = 0 := h0
    set s1 : DfsState := { s with counter := s.counter + 1, number := s.number.set v (s.counter + 1) } with hs1
    have hget1v : getN s1 v = s.counter + 1 :=
      getD_set_self s.number v (s.counter + 1) hvlen
    have hget1ne : ∀ i, i ≠ v → getN s1 i = getN s i :=
      fun i hi => getD_set_ne s.number v i (s.counter + 1) hi
    have hinv1 : DfsInv n s1 := by
      refine ⟨by rw [hs1]; simpa using hinv.len, ?_, ?_, ?_⟩
      · intro i hi
        by_cases hiv : i = v
        · subst hiv
          rw [hget1v]
        · rw [hget1ne i hiv]
          have := hinv.bound i hi
          show getN s i ≤ s.counter + 1
          omega
      · have hcP := countP_set (fun x => decide (x ≠ 0)) s.number v
          (s.counter + 1) hvlen
        rw [h0d] at hcP
        rw [if_neg (by simp), if_pos (by simp)] at hcP
        have hc0 := hinv.cnt
        show (s.number.set v (s.counter + 1)).countP _ = s.counter + 1
        omega
      · intro i hi j hj hij
        by_cases hiv : i = v <;> by_cases hjv : j = v
        · subst hiv; subst hjv; exact Or.inr rfl
        · subst hiv
          rw [hget1v, hget1ne j hjv] at hij
          have := hinv.bound j hj
          omega
        · subst hjv
          rw [hget1v, hget1ne i hiv] at hij
          have := hinv.bound i hi
          rw [hget1ne i hiv]
          omega
        · rw [hget1ne i hiv, hget1ne j hjv] at hij
          rw [hget1ne i hiv]
          exact hinv.inj i hi j hj hij
    have hstepm : DfsStep n s s1 := by
      refine ⟨?_, ?_, Nat.le_succ s.counter,
        by show (s.number.set v (s.counter + 1)).length = s.number.length; simp⟩
      · intro i hi
        have hiv : i ≠ v := fun h => hi (h ▸ h0)
        exact hget1ne i hiv
      · intro i hi hz
        by_cases hiv : i = v
        · subst hiv
          rw [hget1v]
          right
          omega
        · rw [hget1ne i hiv, hz]
          exact Or.inl rfl
    have hZ1 : Zval s1 ≤ fuel := by
      have hcP := countP_set (fun x => decide (x = 0)) s.number v
        (s.counter + 1) hvlen
      rw [h0d] at hcP
      rw [if_pos (by simp), if_neg (by simp)] at hcP
      show (s.number.set v (s.counter + 1)).countP _ ≤ fuel
      unfold Zval at hZ
      omega
    have hv1nz : getN s1 v ≠ 0 := by rw [hget1v]; omega
    have hloop := dfsLoopF_post (B := fuel)
      (fun w u' t ht hw h0t hZt => ih w u' t ht hw h0t hZt)
      (adj v) v u s1 hinv1 hv hv1nz hZ1 (HW v hv)
    show DfsPostD n adj s (dfsLoopF (thickness_dfs adj fuel) v u (adj v) s1) v
    refine ⟨hstepm.trans hloop.step, hloop.inv, ?_, ?_⟩
    · rw [hloop.step.mono v hv1nz, hget1v]
    · intro a ha h0a hnea b hb
      by_cases hav : a = v
      · subst hav
        exact hloop.wsVisited b hb
      · refine hloop.closure a ha ?_ hnea b hb
        rw [hget1ne a hav]
        exact h0a

theorem Zval_le_length (s : DfsState) : Zval s ≤ s.number.length :=
  List.countP_le_length _

theorem checkLoop_post {n : Nat} {adj : Nat → List Nat}
    (HW : ∀ v, v < n → ∀ w ∈ adj v, w < n) :
    ∀ (nodes : List Nat) (s : DfsState), DfsInv n s → (∀ x ∈ nodes, x < n) →
      DfsPostL n adj s (checkLoop adj n nodes s) nodes := by
  intro nodes
  induction nodes with
  | nil =>
    intro s hinv _
    exact ⟨DfsStep.refl, hinv, by simp, fun a _ h0 hne => absurd h0 hne⟩
  | cons node rest ih =>
    intro s hinv hns
    have hnode : node < n := hns node (List.mem_cons_self node rest)
    have hrest : ∀ x ∈ rest, x < n := fun x hx => hns x (List.mem_cons_of_mem _ hx)
    show DfsPostL n adj s (checkLoop adj n (node :: rest) s) (node :: rest)
    by_cases h0 : getN s node = 0
    · rw [checkLoop, if_pos h0]
      have hZ : Zval s ≤ n := le_trans (Zval_le_length s) (le_of_eq hinv.len)
      have hpd := thickness_dfs_post HW n node (-1) s hinv hnode h0 hZ
      have hpl := ih _ hpd.inv hrest
      refine ⟨hpd.step.trans hpl.step, hpl.inv, ?_, ?_⟩
      · intro x hx
        rcases List.mem_cons.mp hx with rfl | hx
        · have hm : getN (thickness_dfs adj n x (-1) s) x ≠ 0 := by
            rw [hpd.markv]
            omega
          rw [hpl.step.mono x hm]
          exact hm
        · exact hpl.wsVisited x hx
      · intro a ha h0a hnea b hb
        by_cases h2a : getN (thickness_dfs adj n node (-1) s) a = 0
        · exact hpl.closure a ha h2a hnea b hb
        · have hcb := hpd.closure a ha h0a h2a b hb
          rw [hpl.step.mono b hcb]
          exact hcb
    · rw [checkLoop, if_neg h0]
      have hpl := ih s hinv hrest
      refine ⟨hpl.step, hpl.inv, ?_, hpl.closure⟩
      intro x hx
      rcases List.mem_cons.mp hx with rfl | hx
      · rw [hpl.step.mono x h0]
        exact h0
      · exact hpl.wsVisited x hx

theorem getD_replicate_zero : ∀ (n i : Nat), (List.replicate n 0).getD i 0 = 0 := by
  intro n
  induction n with
  | zero => intro i; rfl
  | succ m ih =>
    intro i
    cases i with
    | zero => rfl
    | succ j => exact ih j

/-- The initial state of a check_thickness run satisfies the invariant. -/
theorem dfsInv_init (n : Nat) :
    DfsInv n { number := List.replicate n 0, tree_arcs := [], fronds := [], counter := 0 } := by
  refine ⟨by simp, ?_, ?_, ?_⟩
  · intro i _
    show (List.replicate n 0).getD i 0 ≤ 0
    rw [getD_replicate_zero]
  · refine List.countP_eq_zero.mpr ?_
    intro a ha
    have := List.eq_of_mem_replicate ha
    simp [this]
  · intro i _ j _ _
    refine Or.inl ?_
    show (List.replicate n 0).getD i 0 = 0
    exact getD_replicate_zero n i

theorem check_thickness_full_post (n : Nat) (adj : Nat → List Nat)
    (HW : ∀ v, v < n → ∀ w ∈ adj v, w < n) :
    DfsPostL n adj
      { number := List.replicate n 0, tree_arcs := [], fronds := [], counter := 0 }
      (check_thickness_full n adj) (List.range n) :=
  checkLoop_post HW (List.range n) _ (dfsInv_init n) (by simp)

/-- C3: on a graph whose n vertices are densely numbered 0..n-1 (every
adjacency entry below n), a full check_thickness run returns the final
counter n, assigns every vertex exactly one number in 1..n, and assigns
no number twice. -/
theorem c3_thickness_numbering (n : Nat) (adj : Nat → List Nat)
    (HW : ∀ v, v < n → ∀ w ∈ adj v, w < n) :
    check_thickness n adj = n ∧
    (∀ i, i < n → 1 ≤ getN (check_thickness_full n adj) i ∧
        getN (check_thickness_full n adj) i ≤ n) ∧
    (∀ i, i < n → ∀ j, j < n →
        getN (check_thickness_full n adj) i = getN (check_thickness_full n adj) j →
        i = j) := by
  have hpost := check_thickness_full_post n adj HW
  have hvis : ∀ i, i < n → getN (check_thickness_full n adj) i ≠ 0 := by
    intro i hi
    exact hpost.wsVisited i (List.mem_range.mpr hi)
  have hcounter : check_thickness n adj = n := by
    show (check_thickness_full n adj).counter = n
    have hcnt := hpost.inv.cnt
    have hlen := hpost.inv.len
    have hall : (check_thickness_full n adj).number.countP (fun x => decide (x ≠ 0))
        = (check_thickness_full n adj).number.length := by
      refine List.countP_eq_length.mpr ?_
      intro a ha
      obtain ⟨i, hilen, hgi⟩ := List.mem_iff_getElem.mp ha
      have hgd : getN (check_thickness_full n adj) i = a := by
        show (check_thickness_full n adj).number.getD i 0 = a
        rw [List.getD_eq_getElem _ _ hilen]
        exact hgi
      have := hvis i (by omega)
      rw [hgd] at this
      simpa using this
    omega
  refine ⟨hcounter, ?_, ?_⟩
  · intro i hi
    refine ⟨by have := hvis i hi; omega, ?_⟩
    have := hpost.inv.bound i hi
    have hc : (check_thickness_full n adj).counter = n := hcounter
    omega
  · intro i hi j hj hij
    rcases hpost.inv.inj i hi j hj hij with h | h
    · exact absurd h (hvis i hi)
    · exact h

/-- The two disconnected triangles of Scenario D: vertices 0-1-2 and
3-4-5. -/
def adjTwoTriangles : Nat → List Nat
  | 0 => [1, 2]
  | 1 => [0, 2]
  | 2 => [0, 1]
  | 3 => [4, 5]
  | 4 => [3, 5]
  | 5 => [3, 4]
  | _ => []

theorem c3_thickness_numbering_witness :
    check_thickness 6 adjTwoTriangles = 6 :=
  (c3_thickness_numbering 6 adjTwoTriangles (by decide)).1

/-- How many records of l mention the unordered pair a-b (in either
orientation). -/
def cntPair (l : List (Nat × Nat)) (a b : Nat) : Nat :=
  l.countP (fun p => decide ((p.1 = a ∧ p.2 = b) ∨ (p.1 = b ∧ p.2 = a)))

/-- How many times the run so far has classified the undirected edge a-b,
as a tree arc or as a frond. -/
def recCount (s : DfsState) (a b : Nat) : Nat :=
  cntPair s.tree_arcs a b + cntPair s.fronds a b

theorem cntPair_append_single (l : List (Nat × Nat)) (x y a b : Nat) :
    cntPair (l ++ [(x, y)]) a b
      = cntPair l a b + (if (x = a ∧ y = b) ∨ (x = b ∧ y = a) then 1 else 0) := by
  unfold cntPair
  rw [List.countP_append]
  congr 1
  simp only [List.countP_cons, List.countP_nil, Nat.zero_add]
  by_cases h : (x = a ∧ y = b) ∨ (x = b ∧ y = a)
  · rw [if_pos h, if_pos (by simpa using h)]
  · rw [if_neg h, if_neg (by simpa using h)]

/-- x got its number during the passage from state s to state t. -/
def newP (s t : DfsState) (x : Nat) : Prop := getN s x = 0 ∧ getN t x ≠ 0

instance (s t : DfsState) (x : Nat) : Decidable (newP s t x) :=
  decidable_of_iff (getN s x = 0 ∧ getN t x ≠ 0) Iff.rfl

/-- The frond contributions the neighbor loop of v makes directly: one per
remaining occurrence of w whose number is set, smaller than v's, and which
is not the parent. -/
def frCount (s : DfsState) (v : Nat) (u : Int) (ws : List Nat) (w : Nat) : Nat :=
  ws.count w * (if getN s w ≠ 0 ∧ getN s w < getN s v ∧ (w : Int) ≠ u then 1 else 0)

def vfr (s : DfsState) (v : Nat) (u : Int) (ws : List Nat) (a b : Nat) : Nat :=
  if a = v then frCount s v u ws b
  else if b = v then frCount s v u ws a
  else 0

/-- Per-pair accounting of one thickness_dfs call rooted at v with parent
u: the pair a-b gains exactly one record when it is an adjacency pair with
an endpoint numbered during the call, except for the tree edge v-u itself
(already recorded by the caller). -/
def AccD (n : Nat) (adj : Nat → List Nat) (s t : DfsState) (v : Nat)
    (u : Int) : Prop :=
  ∀ a b, a < n → b < n → a ≠ b →
    recCount t a b = recCount s a b +
      (if b ∈ adj a ∧ (newP s t a ∨ newP s t b) ∧
          ¬((a = v ∧ (b : Int) = u) ∨ (b = v ∧ (a : Int) = u)) then 1 else 0)

/-- Per-pair accounting of the neighbor loop of v over the remaining
occurrence list ws: adjacency pairs with a freshly numbered endpoint gain
one record, and pairs v-w gain the direct frond contributions of ws. -/
def AccL (n : Nat) (adj : Nat → List Nat) (s t : DfsState) (v : Nat)
    (u : Int) (ws : List Nat) : Prop :=
  ∀ a b, a < n → b < n → a ≠ b →
    recCount t a b = recCount s a b +
      (if b ∈ adj a ∧ (newP s t a ∨ newP s t b) then 1 else 0) +
      vfr s v u ws a b

/-- Per-pair accounting of the outer loop: adjacency pairs with a freshly
numbered endpoint gain exactly one record. -/
def AccO (n : Nat) (adj : Nat → List Nat) (s t : DfsState) : Prop :=
  ∀ a b, a < n → b < n → a ≠ b →
    recCount t a b = recCount s a b +
      (if b ∈ adj a ∧ (newP s t a ∨ newP s t b) then 1 else 0)

/-- An adjacency pair cannot have an endpoint freshly numbered by one call
and another endpoint freshly numbered strictly later: the first call's
closure already numbered both. -/
theorem newP_not_both {n : Nat} {adj : Nat → List Nat}
    (HS : ∀ v, v < n → ∀ w, w ∈ adj v → v ∈ adj w)
    {s t r : DfsState} {a b : Nat}
    (hcl : ∀ x, x < n → getN s x = 0 → getN t x ≠ 0 → ∀ y ∈ adj x, getN t y ≠ 0)
    (ha : a < n) (hb : b < n) (hE : b ∈ adj a)
    (h2 : newP s t a ∨ newP s t b) : ¬(newP t r a ∨ newP t r b) := by
  rcases h2 with ⟨h0a, hta⟩ | ⟨h0b, htb⟩
  · have hbvis : getN t b ≠ 0 := hcl a ha h0a hta b hE
    rintro (⟨h3, _⟩ | ⟨h3, _⟩)
    · exact hta h3
    · exact hbvis h3
  · have havis : getN t a ≠ 0 := hcl b hb h0b htb a (HS a ha b hE)
    rintro (⟨h3, _⟩ | ⟨h3, _⟩)
    · exact havis h3
    · exact htb h3

/-- After the recursive call on the tree child w, the pending direct
frond contributions of the remaining occurrences are unchanged: every
vertex numbered during the call got a number exceeding v's, and w itself
was unnumbered before the call. -/
theorem frCount_after_call {n : Nat} {s s2 : DfsState} {v w : Nat} {u : Int}
    {rest : List Nat} (x : Nat) (hxn : x < n)
    (hmono : ∀ i, getN s i ≠ 0 → getN s2 i = getN s i)
    (hbig : ∀ i, i < n → getN s i = 0 → getN s2 i = 0 ∨ s.counter < getN s2 i)
    (hvle : getN s v ≤ s.counter) (hvv : getN s2 v = getN s v)
    (h0w : getN s w = 0) :
    frCount s2 v u rest x = frCount s v u (w :: rest) x := by
  unfold frCount
  by_cases hx0 : getN s x = 0
  · have hC1 : (if getN s x ≠ 0 ∧ getN s x < getN s v ∧ (x : Int) ≠ u
        then 1 else 0) = 0 := if_neg (fun hc => hc.1 hx0)
    rw [hC1, Nat.mul_zero]
    by_cases hx2 : getN s2 x = 0
    · rw [if_neg (fun hc => hc.1 hx2), Nat.mul_zero]
    · have hb2 : s.counter < getN s2 x := by
        rcases hbig x hxn hx0 with h | h
        · exact absurd h hx2
        · exact h
      have hC2 : ¬(getN s2 x ≠ 0 ∧ getN s2 x < getN s2 v ∧ (x : Int) ≠ u) := by
        rintro ⟨_, hlt, _⟩
        rw [hvv] at hlt
        omega
      rw [if_neg hC2, Nat.mul_zero]
  · rw [hmono x hx0, hvv]
    have hxw : x ≠ w := fun h => hx0 (h ▸ h0w)
    have hcnt : (w :: rest).count x = rest.count x := by
      rw [List.count_cons]
      have hwx : ¬(w = x) := fun h => hxw h.symm
      simp [hwx]
    rw [hcnt]

theorem frCount_cons_self {s : DfsState} {v w : Nat} {u : Int}
    (rest : List Nat) (x : Nat) :
    frCount s v u (w :: rest) x
      = frCount s v u rest x
        + (if x = w then 1 else 0)
          * (if getN s w ≠ 0 ∧ getN s w < getN s v ∧ (w : Int) ≠ u
              then 1 else 0) := by
  unfold frCount
  by_cases hxw : x = w
  · subst hxw
    rw [List.count_cons]
    simp
    split <;> simp
  · have hwx : ¬(w = x) := fun h => hxw h.symm
    have hcnt : (w :: rest).count x = rest.count x := by
      rw [List.count_cons]
      simp [hwx]
    rw [hcnt, if_neg hxw]
    ring

theorem dfsLoopF_acc {n : Nat} {adj : Nat → List Nat} {B : Nat}
    {dfs : Nat → Int → DfsState → DfsState}
    (HW : ∀ v, v < n → ∀ w ∈ adj v, w < n)
    (HS : ∀ v, v < n → ∀ w, w ∈ adj v → v ∈ adj w)
    (HdfsP : ∀ (w : Nat) (u' : Int) (t : DfsState), DfsInv n t → w < n →
      getN t w = 0 → Zval t ≤ B → DfsPostD n adj t (dfs w u' t) w)
    (HdfsA : ∀ (w : Nat) (u' : Int) (t : DfsState), DfsInv n t → w < n →
      getN t w = 0 → Zval t ≤ B →
      (∀ uN : Nat, (uN : Int) = u' → uN < n → getN t uN ≠ 0) →
      AccD n adj t (dfs w u' t) w u') :
    ∀ (ws : List Nat) (v : Nat) (u : Int) (s : DfsState),
      DfsInv n s → v < n → getN s v ≠ 0 → Zval s ≤ B →
      (∀ w ∈ ws, w ∈ adj v) →
      AccL n adj s (dfsLoopF dfs v u ws s) v u ws := by
  intro ws
  induction ws with
  | nil =>
    intro v u s hinv hv hvnz hZ hws a b ha hb hab
    simp only [dfsLoopF]
    have h1 : ¬(b ∈ adj a ∧ (newP s s a ∨ newP s s b)) := by
      rintro ⟨_, (⟨h0, hn⟩ | ⟨h0, hn⟩)⟩ <;> exact hn h0
    rw [if_neg h1]
    unfold vfr frCount
    simp
  | cons w rest ih =>
    intro v u s hinv hv hvnz hZ hws
    have hwadj : w ∈ adj v := hws w (List.mem_cons_self w rest)
    have hwn : w < n := HW v hv w hwadj
    have hradj : ∀ x ∈ rest, x ∈ adj v := fun x hx => hws x (List.mem_cons_of_mem _ hx)
    by_cases h0 : getN s w = 0
    · -- tree arc, then the recursive call, then the rest of the loop
      have hwv : w ≠ v := fun h => hvnz (h ▸ h0)
      set st : DfsState := { s with tree_arcs := s.tree_arcs ++ [(v, w)] } with hst
      have hinvt : DfsInv n st := ⟨hinv.len, hinv.bound, hinv.cnt, hinv.inj⟩
      have hpd := HdfsP w (v : Int) st hinvt hwn h0 hZ
      have hacc2 := HdfsA w (v : Int) st hinvt hwn h0 hZ (by
        intro uN huN _
        have huv : uN = v := by exact_mod_cast huN
        subst huv
        exact hvnz)
      set s2 : DfsState := dfs w (v : Int) st with hs2
      have hv2 : getN s2 v ≠ 0 := by rw [hpd.step.mono v hvnz]; exact hvnz
      have hvv : getN s2 v = getN s v := hpd.step.mono v hvnz
      have hZ2 : Zval s2 ≤ B := le_trans (Zval_le_of_step hpd.step) hZ
      have hpl := dfsLoopF_post HdfsP rest v u s2 hpd.inv hv hv2 hZ2
        (fun x hx => HW v hv x (hradj x hx))
      have haccL := ih v u s2 hpd.inv hv hv2 hZ2 hradj
      have hwnew : getN s2 w = s.counter + 1 := hpd.markv
      have hvbound : getN s v ≤ s.counter := hinv.bound v hv
      intro a b ha hb hab
      rw [dfsLoopF, if_pos h0]
      set sF : DfsState := dfsLoopF dfs v u rest s2 with hsF
      have e3 := haccL a b ha hb hab
      have e2 := hacc2 a b ha hb hab
      have e1 : recCount st a b = recCount s a b
          + (if (v = a ∧ w = b) ∨ (v = b ∧ w = a) then 1 else 0) := by
        show cntPair (s.tree_arcs ++ [(v, w)]) a b + cntPair s.fronds a b
            = cntPair s.tree_arcs a b + cntPair s.fronds a b + _
        rw [cntPair_append_single]
        omega
      rw [e3, e2, e1]
      have hkey : (if (v = a ∧ w = b) ∨ (v = b ∧ w = a) then 1 else 0)
          + (if b ∈ adj a ∧ (newP st s2 a ∨ newP st s2 b) ∧
              ¬((a = w ∧ (b : Int) = (v : Int)) ∨ (b = w ∧ (a : Int) = (v : Int)))
              then 1 else 0)
          + (if b ∈ adj a ∧ (newP s2 sF a ∨ newP s2 sF b) then 1 else 0)
          + vfr s2 v u rest a b
          = (if b ∈ adj a ∧ (newP s sF a ∨ newP s sF b) then 1 else 0)
            + vfr s v u (w :: rest) a b := by
        by_cases hpair : (v = a ∧ w = b) ∨ (v = b ∧ w = a)
        · have hT1 : (if (v = a ∧ w = b) ∨ (v = b ∧ w = a) then 1 else 0) = 1 :=
            if_pos hpair
          have hexcl : (a = w ∧ (b : Int) = (v : Int)) ∨
              (b = w ∧ (a : Int) = (v : Int)) := by
            rcases hpair with ⟨hva, hwb⟩ | ⟨hvb, hwa⟩
            · exact Or.inr ⟨hwb.symm, by exact_mod_cast congrArg Nat.cast hva.symm⟩
            · exact Or.inl ⟨hwa.symm, by exact_mod_cast congrArg Nat.cast hvb.symm⟩
          have hD2 : (if b ∈ adj a ∧ (newP st s2 a ∨ newP st s2 b) ∧
              ¬((a = w ∧ (b : Int) = (v : Int)) ∨ (b = w ∧ (a : Int) = (v : Int)))
              then 1 else 0) = 0 := by
            refine if_neg ?_
            rintro ⟨_, _, hne⟩
            exact hne hexcl
          have hw2nz : getN s2 w ≠ 0 := by rw [hwnew]; omega
          have hT3 : (if b ∈ adj a ∧ (newP s2 sF a ∨ newP s2 sF b)
              then 1 else 0) = 0 := by
            refine if_neg ?_
            rintro ⟨_, hor⟩
            rcases hpair with ⟨hva, hwb⟩ | ⟨hvb, hwa⟩
            · rcases hor with ⟨hz, _⟩ | ⟨hz, _⟩
              · rw [← hva] at hz
                exact hv2 hz
              · rw [← hwb] at hz
                exact hw2nz hz
            · rcases hor with ⟨hz, _⟩ | ⟨hz, _⟩
              · rw [← hwa] at hz
                exact hw2nz hz
              · rw [← hvb] at hz
                exact hv2 hz
          have hnotlt : ¬(getN s2 w ≠ 0 ∧ getN s2 w < getN s2 v ∧ (w : Int) ≠ u) := by
            rintro ⟨_, hlt, _⟩
            rw [hwnew, hvv] at hlt
            omega
          have hV2 : vfr s2 v u rest a b = 0 := by
            unfold vfr
            rcases hpair with ⟨hva, hwb⟩ | ⟨hvb, hwa⟩
            · rw [if_pos hva.symm]
              unfold frCount
              rw [← hwb, if_neg hnotlt, Nat.mul_zero]
            · rw [if_neg (by rw [← hwa]; exact hwv), if_pos hvb.symm]
              unfold frCount
              rw [← hwa, if_neg hnotlt, Nat.mul_zero]
          have hwF : getN sF w ≠ 0 := by
            rw [hpl.step.mono w hw2nz]
            exact hw2nz
          have hTT : (if b ∈ adj a ∧ (newP s sF a ∨ newP s sF b)
              then 1 else 0) = 1 := by
            refine if_pos ⟨?_, ?_⟩
            · rcases hpair with ⟨hva, hwb⟩ | ⟨hvb, hwa⟩
              · rw [← hva, ← hwb]
                exact hwadj
              · rw [← hvb, ← hwa]
                exact HS v hv w hwadj
            · rcases hpair with ⟨hva, hwb⟩ | ⟨hvb, hwa⟩
              · exact Or.inr ⟨hwb ▸ h0, hwb ▸ hwF⟩
              · exact Or.inl ⟨hwa ▸ h0, hwa ▸ hwF⟩
          have hnotfr : ¬(getN s w ≠ 0 ∧ getN s w < getN s v ∧ (w : Int) ≠ u) :=
            fun hc => hc.1 h0
          have hVT : vfr s v u (w :: rest) a b = 0 := by
            unfold vfr
            rcases hpair with ⟨hva, hwb⟩ | ⟨hvb, hwa⟩
            · rw [if_pos hva.symm]
              unfold frCount
              rw [← hwb, if_neg hnotfr, Nat.mul_zero]
            · rw [if_neg (by rw [← hwa]; exact hwv), if_pos hvb.symm]
              unfold frCount
              rw [← hwa, if_neg hnotfr, Nat.mul_zero]
          rw [hT1, hD2, hT3, hV2, hTT, hVT]
        · have hT1 : (if (v = a ∧ w = b) ∨ (v = b ∧ w = a) then 1 else 0) = 0 :=
            if_neg hpair
          have hnexcl : ¬((a = w ∧ (b : Int) = (v : Int)) ∨
              (b = w ∧ (a : Int) = (v : Int))) := by
            rintro (⟨haw, hbv⟩ | ⟨hbw, hav⟩)
            · have hbv2 : b = v := by exact_mod_cast hbv
              exact hpair (Or.inr ⟨hbv2.symm, haw.symm⟩)
            · have hav2 : a = v := by exact_mod_cast hav
              exact hpair (Or.inl ⟨hav2.symm, hbw.symm⟩)
          have hDT : (if b ∈ adj a ∧ (newP st s2 a ∨ newP st s2 b) ∧
              ¬((a = w ∧ (b : Int) = (v : Int)) ∨ (b = w ∧ (a : Int) = (v : Int)))
              then 1 else 0)
              + (if b ∈ adj a ∧ (newP s2 sF a ∨ newP s2 sF b) then 1 else 0)
              = (if b ∈ adj a ∧ (newP s sF a ∨ newP s sF b) then 1 else 0) := by
            by_cases hE : b ∈ adj a
            · by_cases h2 : newP st s2 a ∨ newP st s2 b
              · have h3 := newP_not_both (r := sF) HS hpd.closure ha hb hE h2
                have hTTc : newP s sF a ∨ newP s sF b := by
                  rcases h2 with ⟨hz, hnz⟩ | ⟨hz, hnz⟩
                  · exact Or.inl ⟨hz, by rw [hpl.step.mono a hnz]; exact hnz⟩
                  · exact Or.inr ⟨hz, by rw [hpl.step.mono b hnz]; exact hnz⟩
                rw [if_pos ⟨hE, h2, hnexcl⟩, if_neg (fun hc => h3 hc.2),
                  if_pos ⟨hE, hTTc⟩]
              · by_cases h3 : newP s2 sF a ∨ newP s2 sF b
                · have hTTc : newP s sF a ∨ newP s sF b := by
                    rcases h3 with ⟨hz, hnz⟩ | ⟨hz, hnz⟩
                    · refine Or.inl ⟨?_, hnz⟩
                      by_contra hne
                      have hm := hpd.step.mono a hne
                      rw [hz] at hm
                      exact hne hm.symm
                    · refine Or.inr ⟨?_, hnz⟩
                      by_contra hne
                      have hm := hpd.step.mono b hne
                      rw [hz] at hm
                      exact hne hm.symm
                  rw [if_neg (fun hc => h2 hc.2.1), if_pos ⟨hE, h3⟩,
                    if_pos ⟨hE, hTTc⟩]
                · have hno : ¬(b ∈ adj a ∧ (newP s sF a ∨ newP s sF b)) := by
                    rintro ⟨_, hor⟩
                    rcases hor with ⟨hz, hnz⟩ | ⟨hz, hnz⟩
                    · by_cases h2a : getN s2 a = 0
                      · exact h3 (Or.inl ⟨h2a, hnz⟩)
                      · exact h2 (Or.inl ⟨hz, h2a⟩)
                    · by_cases h2b : getN s2 b = 0
                      · exact h3 (Or.inr ⟨h2b, hnz⟩)
                      · exact h2 (Or.inr ⟨hz, h2b⟩)
                  rw [if_neg (fun hc => h2 hc.2.1), if_neg (fun hc => h3 hc.2),
                    if_neg hno]
            · rw [if_neg (fun hc => hE hc.1), if_neg (fun hc => hE hc.1),
                if_neg (fun hc => hE hc.1)]
          have hVV : vfr s2 v u rest a b = vfr s v u (w :: rest) a b := by
            unfold vfr
            by_cases hav : a = v
            · rw [if_pos hav, if_pos hav]
              exact frCount_after_call b hb hpd.step.mono hpd.step.newBig
                hvbound hvv h0
            · by_cases hbv : b = v
              · rw [if_neg hav, if_neg hav, if_pos hbv, if_pos hbv]
                exact frCount_after_call a ha hpd.step.mono hpd.step.newBig
                  hvbound hvv h0
              · rw [if_neg hav, if_neg hav, if_neg hbv, if_neg hbv]
          rw [hT1, hDT.symm, hVV]
          omega
      omega
    · -- w is already numbered: frond or skip
      by_cases h1 : getN s w < getN s v ∧ (w : Int) ≠ u
      · set sf : DfsState := { s with fronds := s.fronds ++ [(v, w)] } with hsf
        have hinvf : DfsInv n sf := ⟨hinv.len, hinv.bound, hinv.cnt, hinv.inj⟩
        have haccL := ih v u sf hinvf hv hvnz hZ hradj
        intro a b ha hb hab
        rw [dfsLoopF, if_neg h0, if_pos h1]
        set sF : DfsState := dfsLoopF dfs v u rest sf with hsF
        have e3 := haccL a b ha hb hab
        have e1 : recCount sf a b = recCount s a b
            + (if (v = a ∧ w = b) ∨ (v = b ∧ w = a) then 1 else 0) := by
          show cntPair s.tree_arcs a b + cntPair (s.fronds ++ [(v, w)]) a b
              = cntPair s.tree_arcs a b + cntPair s.fronds a b + _
          rw [cntPair_append_single]
          omega
        rw [e3, e1]
        have hsame : (if b ∈ adj a ∧ (newP sf sF a ∨ newP sf sF b) then 1 else 0)
            = (if b ∈ adj a ∧ (newP s sF a ∨ newP s sF b) then 1 else 0) := rfl
        have hvfr : vfr sf v u rest a b = vfr s v u rest a b := rfl
        rw [hsame, hvfr]
        have hind : (if getN s w ≠ 0 ∧ getN s w < getN s v ∧ (w : Int) ≠ u
            then 1 else 0) = 1 := if_pos ⟨h0, h1.1, h1.2⟩
        have hVsplit : vfr s v u (w :: rest) a b
            = vfr s v u rest a b
              + (if a = v then (if b = w then 1 else 0)
                  else if b = v then (if a = w then 1 else 0) else 0)
                * (if getN s w ≠ 0 ∧ getN s w < getN s v ∧ (w : Int) ≠ u
                    then 1 else 0) := by
          unfold vfr
          by_cases hav : a = v
          · rw [if_pos hav, if_pos hav, if_pos hav, frCount_cons_self]
          · by_cases hbv : b = v
            · rw [if_neg hav, if_neg hav, if_neg hav, if_pos hbv, if_pos hbv,
                if_pos hbv, frCount_cons_self]
            · rw [if_neg hav, if_neg hav, if_neg hav, if_neg hbv, if_neg hbv,
                if_neg hbv]
              simp
        have hT1sel : (if (v = a ∧ w = b) ∨ (v = b ∧ w = a) then 1 else 0)
            = (if a = v then (if b = w then 1 else 0)
                else if b = v then (if a = w then 1 else 0) else 0) := by
          by_cases hav : a = v
          · rw [if_pos hav]
            by_cases hbw : b = w
            · rw [if_pos (Or.inl ⟨hav.symm, hbw.symm⟩), if_pos hbw]
            · have hno : ¬((v = a ∧ w = b) ∨ (v = b ∧ w = a)) := by
                rintro (⟨_, hwb⟩ | ⟨hvb, _⟩)
                · exact hbw hwb.symm
                · exact hab (hav.trans hvb)
              rw [if_neg hno, if_neg hbw]
          · by_cases hbv : b = v
            · rw [if_neg hav, if_pos hbv]
              by_cases haw : a = w
              · rw [if_pos (Or.inr ⟨hbv.symm, haw.symm⟩), if_pos haw]
              · have hno : ¬((v = a ∧ w = b) ∨ (v = b ∧ w = a)) := by
                  rintro (⟨hva, _⟩ | ⟨_, hwa⟩)
                  · exact hav hva.symm
                  · exact haw hwa.symm
                rw [if_neg hno, if_neg haw]
            · have hno : ¬((v = a ∧ w = b) ∨ (v = b ∧ w = a)) := by
                rintro (⟨hva, _⟩ | ⟨hvb, _⟩)
                · exact hav hva.symm
                · exact hbv hvb.symm
              rw [if_neg hno, if_neg hav, if_neg hbv]
        rw [hVsplit, hT1sel, hind]
        omega
      · have haccL := ih v u s hinv hv hvnz hZ hradj
        intro a b ha hb hab
        rw [dfsLoopF, if_neg h0, if_neg h1]
        have e3 := haccL a b ha hb hab
        rw [e3]
        have hind : (if getN s w ≠ 0 ∧ getN s w < getN s v ∧ (w : Int) ≠ u
            then 1 else 0) = 0 := if_neg (fun hc => h1 ⟨hc.2.1, hc.2.2⟩)
        have hVsplit : vfr s v u (w :: rest) a b
            = vfr s v u rest a b
              + (if a = v then (if b = w then 1 else 0)
                  else if b = v then (if a = w then 1 else 0) else 0)
                * (if getN s w ≠ 0 ∧ getN s w < getN s v ∧ (w : Int) ≠ u
                    then 1 else 0) := by
          unfold vfr
          by_cases hav : a = v
          · rw [if_pos hav, if_pos hav, if_pos hav, frCount_cons_self]
          · by_cases hbv : b = v
            · rw [if_neg hav, if_neg hav, if_neg hav, if_pos hbv, if_pos hbv,
                if_pos hbv, frCount_cons_self]
            · rw [if_neg hav, if_neg hav, if_neg hav, if_neg hbv, if_neg hbv,
                if_neg hbv]
              simp
        rw [hVsplit, hind]
        omega

theorem thickness_dfs_acc {n : Nat} {adj : Nat → List Nat}
    (HW : ∀ v, v < n → ∀ w ∈ adj v, w < n)
    (HS : ∀ v, v < n → ∀ w, w ∈ adj v → v ∈ adj w)
    (HN : ∀ v, v < n → (adj v).Nodup) :
    ∀ (fuel v : Nat) (u : Int) (s : DfsState),
      DfsInv n s → v < n → getN s v = 0 → Zval s ≤ fuel →
      (∀ uN : Nat, (uN : Int) = u → uN < n → getN s uN ≠ 0) →
      AccD n adj s (thickness_dfs adj fuel v u s) v u := by
  intro fuel
  induction fuel with
  | zero =>
    intro v u s hinv hv h0 hZ _
    have := Zval_pos hinv.len hv h0
    omega
  | succ fuel ih =>
    intro v u s hinv hv h0 hZ hpar
    have hvlen : v < s.number.length := by rw [hinv.len]; exact hv
    have h0d : s.number.getD v 0 = 0 := h0
    set s1 : DfsState := { s with counter := s.counter + 1, number := s.number.set v (s.counter + 1) } with hs1
    have hget1v : getN s1 v = s.counter + 1 :=
      getD_set_self s.number v (s.counter + 1) hvlen
    have hget1ne : ∀ i, i ≠ v → getN s1 i = getN s i :=
      fun i hi => getD_set_ne s.number v i (s.counter + 1) hi
    have hinv1 : DfsInv n s1 := by
      refine ⟨by rw [hs1]; simpa using hinv.len, ?_, ?_, ?_⟩
      · intro i hi
        by_cases hiv : i = v
        · subst hiv
          rw [hget1v]
        · rw [hget1ne i hiv]
          have := hinv.bound i hi
          show getN s i ≤ s.counter + 1
          omega
      · have hcP := countP_set (fun x => decide (x ≠ 0)) s.number v
          (s.counter + 1) hvlen
        rw [h0d] at hcP
        rw [if_neg (by simp), if_pos (by simp)] at hcP
        have hc0 := hinv.cnt
        show (s.number.set v (s.counter + 1)).countP _ = s.counter + 1
        omega
      · intro i hi j hj hij
        by_cases hiv : i = v <;> by_cases hjv : j = v
        · subst hiv; subst hjv; exact Or.inr rfl
        · subst hiv
          rw [hget1v, hget1ne j hjv] at hij
          have := hinv.bound j hj
          omega
        · subst hjv
          rw [hget1v, hget1ne i hiv] at hij
          have := hinv.bound i hi
          rw [hget1ne i hiv]
          omega
        · rw [hget1ne i hiv, hget1ne j hjv] at hij
          rw [hget1ne i hiv]
          exact hinv.inj i hi j hj hij
    have hZ1 : Zval s1 ≤ fuel := by
      have hcP := countP_set (fun x => decide (x = 0)) s.number v
        (s.counter + 1) hvlen
      rw [h0d] at hcP
      rw [if_pos (by simp), if_neg (by simp)] at hcP
      show (s.number.set v (s.counter + 1)).countP _ ≤ fuel
      unfold Zval at hZ
      omega
    have hv1nz : getN s1 v ≠ 0 := by rw [hget1v]; omega
    have hloopP := dfsLoopF_post (B := fuel)
      (fun w u' t ht hw h0t hZt => thickness_dfs_post HW fuel w u' t ht hw h0t hZt)
      (adj v) v u s1 hinv1 hv hv1nz hZ1 (HW v hv)
    have hloopA := dfsLoopF_acc HW HS (B := fuel)
      (fun w u' t ht hw h0t hZt => thickness_dfs_post HW fuel w u' t ht hw h0t hZt)
      (fun w u' t ht hw h0t hZt hpt => ih w u' t ht hw h0t hZt hpt)
      (adj v) v u s1 hinv1 hv hv1nz hZ1 (fun w hw => hw)
    intro a b ha hb hab
    show recCount (dfsLoopF (thickness_dfs adj fuel) v u (adj v) s1) a b
      = recCount s a b +
        (if b ∈ adj a ∧
            (newP s (dfsLoopF (thickness_dfs adj fuel) v u (adj v) s1) a ∨
              newP s (dfsLoopF (thickness_dfs adj fuel) v u (adj v) s1) b) ∧
            ¬((a = v ∧ (b : Int) = u) ∨ (b = v ∧ (a : Int) = u)) then 1 else 0)
    set sF : DfsState := dfsLoopF (thickness_dfs adj fuel) v u (adj v) s1 with hsF
    have e := hloopA a b ha hb hab
    have e0 : recCount s1 a b = recCount s a b := rfl
    rw [e, e0]
    have hvF : getN sF v = s.counter + 1 := by
      rw [hloopP.step.mono v hv1nz, hget1v]
    have hkey : (if b ∈ adj a ∧ (newP s1 sF a ∨ newP s1 sF b) then 1 else 0)
        + vfr s1 v u (adj v) a b
        = (if b ∈ adj a ∧ (newP s sF a ∨ newP s sF b) ∧
            ¬((a = v ∧ (b : Int) = u) ∨ (b = v ∧ (a : Int) = u))
            then 1 else 0) := by
      by_cases hav : a = v
      · subst hav
        have hbv : b ≠ a := fun h => hab h.symm
        have hvfr : vfr s1 a u (adj a) a b = frCount s1 a u (adj a) b := by
          unfold vfr
          rw [if_pos rfl]
        rw [hvfr]
        by_cases hE : b ∈ adj a
        · have hcnt : (adj a).count b = 1 :=
            List.count_eq_one_of_mem (HN a ha) hE
          by_cases hb0 : getN s b = 0
          · have hbu : (b : Int) ≠ u := fun hc => hpar b hc hb (by exact hb0)
            have hbF : getN sF b ≠ 0 := hloopP.wsVisited b hE
            have hb1 : getN s1 b = 0 := by rw [hget1ne b hbv]; exact hb0
            have hL1 : (if b ∈ adj a ∧ (newP s1 sF a ∨ newP s1 sF b)
                then 1 else 0) = 1 :=
              if_pos ⟨hE, Or.inr ⟨hb1, hbF⟩⟩
            have hfr0 : frCount s1 a u (adj a) b = 0 := by
              unfold frCount
              rw [if_neg (fun hc => hc.1 hb1), Nat.mul_zero]
            have hR1 : (if b ∈ adj a ∧ (newP s sF a ∨ newP s sF b) ∧
                ¬((a = a ∧ (b : Int) = u) ∨ (b = a ∧ (a : Int) = u))
                then 1 else 0) = 1 := by
              refine if_pos ⟨hE, Or.inr ⟨hb0, hbF⟩, ?_⟩
              rintro (⟨_, hc⟩ | ⟨hc, _⟩)
              · exact hbu hc
              · exact hbv hc
            rw [hL1, hfr0, hR1]
          · have hb1 : getN s1 b = getN s b := hget1ne b hbv
            have hL0 : (if b ∈ adj a ∧ (newP s1 sF a ∨ newP s1 sF b)
                then 1 else 0) = 0 := by
              refine if_neg ?_
              rintro ⟨_, (⟨hz, _⟩ | ⟨hz, _⟩)⟩
              · exact hv1nz hz
              · rw [hb1] at hz
                exact hb0 hz
            have hblt : getN s1 b < getN s1 a := by
              rw [hb1, hget1v]
              have := hinv.bound b hb
              omega
            have hnots : ¬ newP s sF a ∨ True := Or.inr trivial
            by_cases hbu : (b : Int) = u
            · have hfr0 : frCount s1 a u (adj a) b = 0 := by
                unfold frCount
                rw [if_neg (fun hc => hc.2.2 hbu), Nat.mul_zero]
              have hR0 : (if b ∈ adj a ∧ (newP s sF a ∨ newP s sF b) ∧
                  ¬((a = a ∧ (b : Int) = u) ∨ (b = a ∧ (a : Int) = u))
                  then 1 else 0) = 0 := by
                refine if_neg ?_
                rintro ⟨_, _, hne⟩
                exact hne (Or.inl ⟨rfl, hbu⟩)
              rw [hL0, hfr0, hR0]
            · have hfr1 : frCount s1 a u (adj a) b = 1 := by
                unfold frCount
                rw [if_pos ⟨by rw [hb1]; exact hb0, hblt, hbu⟩, hcnt, Nat.mul_one]
              have hR1 : (if b ∈ adj a ∧ (newP s sF a ∨ newP s sF b) ∧
                  ¬((a = a ∧ (b : Int) = u) ∨ (b = a ∧ (a : Int) = u))
                  then 1 else 0) = 1 := by
                refine if_pos ⟨hE, Or.inl ⟨h0, by rw [hvF]; omega⟩, ?_⟩
                rintro (⟨_, hc⟩ | ⟨hc, _⟩)
                · exact hbu hc
                · exact hbv hc
              rw [hL0, hfr1, hR1]
        · have hfr0 : frCount s1 a u (adj a) b = 0 := by
            unfold frCount
            rw [List.count_eq_zero_of_not_mem hE, Nat.zero_mul]
          rw [hfr0, if_neg (fun hc => hE hc.1), if_neg (fun hc => hE hc.1)]
      · by_cases hbv : b = v
        · subst hbv
          have hanb : a ≠ b := hab
          have hvfr : vfr s1 b u (adj b) a b = frCount s1 b u (adj b) a := by
            unfold vfr
            rw [if_neg hav, if_pos rfl]
          rw [hvfr]
          by_cases hE : b ∈ adj a
          · have haadj : a ∈ adj b := HS a ha b hE
            have hcnt : (adj b).count a = 1 :=
              List.count_eq_one_of_mem (HN b hb) haadj
            by_cases ha0 : getN s a = 0
            · have hau : (a : Int) ≠ u := fun hc => hpar a hc ha (by exact ha0)
              have haF : getN sF a ≠ 0 := hloopP.wsVisited a haadj
              have ha1 : getN s1 a = 0 := by rw [hget1ne a hav]; exact ha0
              have hL1 : (if b ∈ adj a ∧ (newP s1 sF a ∨ newP s1 sF b)
                  then 1 else 0) = 1 :=
                if_pos ⟨hE, Or.inl ⟨ha1, haF⟩⟩
              have hfr0 : frCount s1 b u (adj b) a = 0 := by
                unfold frCount
                rw [if_neg (fun hc => hc.1 ha1), Nat.mul_zero]
              have hR1 : (if b ∈ adj a ∧ (newP s sF a ∨ newP s sF b) ∧
                  ¬((a = b ∧ (b : Int) = u) ∨ (b = b ∧ (a : Int) = u))
                  then 1 else 0) = 1 := by
                refine if_pos ⟨hE, Or.inl ⟨ha0, haF⟩, ?_⟩
                rintro (⟨hc, _⟩ | ⟨_, hc⟩)
                · exact hanb hc
                · exact hau hc
              rw [hL1, hfr0, hR1]
            · have ha1 : getN s1 a = getN s a := hget1ne a hav
              have hL0 : (if b ∈ adj a ∧ (newP s1 sF a ∨ newP s1 sF b)
                  then 1 else 0) = 0 := by
                refine if_neg ?_
                rintro ⟨_, (⟨hz, _⟩ | ⟨hz, _⟩)⟩
                · rw [ha1] at hz
                  exact ha0 hz
                · exact hv1nz hz
              have halt : getN s1 a < getN s1 b := by
                rw [ha1, hget1v]
                have := hinv.bound a ha
                omega
              by_cases hau : (a : Int) = u
              · have hfr0 : frCount s1 b u (adj b) a = 0 := by
                  unfold frCount
                  rw [if_neg (fun hc => hc.2.2 hau), Nat.mul_zero]
                have hR0 : (if b ∈ adj a ∧ (newP s sF a ∨ newP s sF b) ∧
                    ¬((a = b ∧ (b : Int) = u) ∨ (b = b ∧ (a : Int) = u))
                    then 1 else 0) = 0 := by
                  refine if_neg ?_
                  rintro ⟨_, _, hne⟩
                  exact hne (Or.inr ⟨rfl, hau⟩)
                rw [hL0, hfr0, hR0]
              · have hfr1 : frCount s1 b u (adj b) a = 1 := by
                  unfold frCount
                  rw [if_pos ⟨by rw [ha1]; exact ha0, halt, hau⟩, hcnt, Nat.mul_one]
                have hR1 : (if b ∈ adj a ∧ (newP s sF a ∨ newP s sF b) ∧
                    ¬((a = b ∧ (b : Int) = u) ∨ (b = b ∧ (a : Int) = u))
                    then 1 else 0) = 1 := by
                  refine if_pos ⟨hE, Or.inr ⟨h0, by rw [hvF]; omega⟩, ?_⟩
                  rintro (⟨hc, _⟩ | ⟨_, hc⟩)
                  · exact hanb hc
                  · exact hau hc
                rw [hL0, hfr1, hR1]
          · have hfr0 : frCount s1 b u (adj b) a = 0 := by
              unfold frCount
              by_cases hmem : a ∈ adj b
              · exact absurd (HS b hb a hmem) hE
              · rw [List.count_eq_zero_of_not_mem hmem, Nat.zero_mul]
            rw [hfr0, if_neg (fun hc => hE hc.1), if_neg (fun hc => hE hc.1)]
        · have hvfr : vfr s1 v u (adj v) a b = 0 := by
            unfold vfr
            rw [if_neg hav, if_neg hbv]
          have hiff : (b ∈ adj a ∧ (newP s1 sF a ∨ newP s1 sF b))
              ↔ (b ∈ adj a ∧ (newP s sF a ∨ newP s sF b) ∧
                  ¬((a = v ∧ (b : Int) = u) ∨ (b = v ∧ (a : Int) = u))) := by
            have hna : getN s1 a = getN s a := hget1ne a hav
            have hnb : getN s1 b = getN s b := hget1ne b hbv
            constructor
            · rintro ⟨hE, hor⟩
              refine ⟨hE, ?_, ?_⟩
              · rcases hor with ⟨hz, hnz⟩ | ⟨hz, hnz⟩
                · exact Or.inl ⟨by rw [← hna]; exact hz, hnz⟩
                · exact Or.inr ⟨by rw [← hnb]; exact hz, hnz⟩
              · rintro (⟨hc, _⟩ | ⟨hc, _⟩)
                · exact hav hc
                · exact hbv hc
            · rintro ⟨hE, hor, _⟩
              refine ⟨hE, ?_⟩
              rcases hor with ⟨hz, hnz⟩ | ⟨hz, hnz⟩
              · exact Or.inl ⟨by rw [hna]; exact hz, hnz⟩
              · exact Or.inr ⟨by rw [hnb]; exact hz, hnz⟩
          rw [hvfr, if_congr hiff rfl rfl]
          omega
    omega

/-- Per-pair accounting of the outer loop of check_thickness: every root
call uses parent -1, which no vertex matches, so each adjacency pair with
an endpoint numbered by the loop gains exactly one record. -/
theorem checkLoop_acc {n : Nat} {adj : Nat → List Nat}
    (HW : ∀ v, v < n → ∀ w ∈ adj v, w < n)
    (HS : ∀ v, v < n → ∀ w, w ∈ adj v → v ∈ adj w)
    (HN : ∀ v, v < n → (adj v).Nodup) :
    ∀ (nodes : List Nat) (s : DfsState), DfsInv n s → (∀ x ∈ nodes, x < n) →
      AccO n adj s (checkLoop adj n nodes s) := by
  intro nodes
  induction nodes with
  | nil =>
    intro s hinv _ a b ha hb hab
    show recCount s a b = recCount s a b
      + (if b ∈ adj a ∧ (newP s s a ∨ newP s s b) then 1 else 0)
    have h1 : ¬(b ∈ adj a ∧ (newP s s a ∨ newP s s b)) := by
      rintro ⟨_, (⟨h0, hn⟩ | ⟨h0, hn⟩)⟩ <;> exact hn h0
    rw [if_neg h1]
    omega
  | cons node rest ih =>
    intro s hinv hns
    have hnode : node < n := hns node (List.mem_cons_self node rest)
    have hrest : ∀ x ∈ rest, x < n := fun x hx => hns x (List.mem_cons_of_mem _ hx)
    by_cases h0 : getN s node = 0
    · have hZ : Zval s ≤ n := le_trans (Zval_le_length s) (le_of_eq hinv.len)
      have hpd := thickness_dfs_post HW n node (-1) s hinv hnode h0 hZ
      have hacc2 := thickness_dfs_acc HW HS HN n node (-1) s hinv hnode h0 hZ
        (fun uN huN _ => absurd huN (by omega))
      set s2 : DfsState := thickness_dfs adj n node (-1) s with hs2
      have hpl := checkLoop_post HW rest s2 hpd.inv hrest
      have haccL := ih s2 hpd.inv hrest
      intro a b ha hb hab
      rw [checkLoop, if_pos h0]
      set sF : DfsState := checkLoop adj n rest s2 with hsF
      have e3 := haccL a b ha hb hab
      have e2 := hacc2 a b ha hb hab
      rw [e3, e2]
      have hnexcl : ¬((a = node ∧ (b : Int) = (-1 : Int)) ∨
          (b = node ∧ (a : Int) = (-1 : Int))) := by
        rintro (⟨_, hc⟩ | ⟨_, hc⟩) <;> omega
      have hkey : (if b ∈ adj a ∧ (newP s s2 a ∨ newP s s2 b) ∧
            ¬((a = node ∧ (b : Int) = (-1 : Int)) ∨
              (b = node ∧ (a : Int) = (-1 : Int)))
            then 1 else 0)
          + (if b ∈ adj a ∧ (newP s2 sF a ∨ newP s2 sF b) then 1 else 0)
          = (if b ∈ adj a ∧ (newP s sF a ∨ newP s sF b) then 1 else 0) := by
        by_cases hE : b ∈ adj a
        · by_cases h2 : newP s s2 a ∨ newP s s2 b
          · have h3 := newP_not_both (r := sF) HS hpd.closure ha hb hE h2
            have hTTc : newP s sF a ∨ newP s sF b := by
              rcases h2 with ⟨hz, hnz⟩ | ⟨hz, hnz⟩
              · exact Or.inl ⟨hz, by rw [hpl.step.mono a hnz]; exact hnz⟩
              · exact Or.inr ⟨hz, by rw [hpl.step.mono b hnz]; exact hnz⟩
            rw [if_pos ⟨hE, h2, hnexcl⟩, if_neg (fun hc => h3 hc.2),
              if_pos ⟨hE, hTTc⟩]
          · by_cases h3 : newP s2 sF a ∨ newP s2 sF b
            · have hTTc : newP s sF a ∨ newP s sF b := by
                rcases h3 with ⟨hz, hnz⟩ | ⟨hz, hnz⟩
                · refine Or.inl ⟨?_, hnz⟩
                  by_contra hne
                  have hm := hpd.step.mono a hne
                  rw [hz] at hm
                  exact hne hm.symm
                · refine Or.inr ⟨?_, hnz⟩
                  by_contra hne
                  have hm := hpd.step.mono b hne
                  rw [hz] at hm
                  exact hne hm.symm
              rw [if_neg (fun hc => h2 hc.2.1), if_pos ⟨hE, h3⟩,
                if_pos ⟨hE, hTTc⟩]
            · have hno : ¬(b ∈ adj a ∧ (newP s sF a ∨ newP s sF b)) := by
                rintro ⟨_, hor⟩
                rcases hor with ⟨hz, hnz⟩ | ⟨hz, hnz⟩
                · by_cases h2a : getN s2 a = 0
                  · exact h3 (Or.inl ⟨h2a, hnz⟩)
                  · exact h2 (Or.inl ⟨hz, h2a⟩)
                · by_cases h2b : getN s2 b = 0
                  · exact h3 (Or.inr ⟨h2b, hnz⟩)
                  · exact h2 (Or.inr ⟨hz, h2b⟩)
              rw [if_neg (fun hc => h2 hc.2.1), if_neg (fun hc => h3 hc.2),
                if_neg hno]
        · rw [if_neg (fun hc => hE hc.1), if_neg (fun hc => hE hc.1),
            if_neg (fun hc => hE hc.1)]
      omega
    · rw [checkLoop, if_neg h0]
      exact ih s hinv hrest

/-- C4: on a graph whose n vertices are densely numbered 0..n-1 with a
symmetric, duplicate-free adjacency, the full classification records every
undirected adjacency pair exactly once (as a tree arc or as a frond) and
every non-adjacent pair zero times; and on two disconnected triangles the
run ends with counter 6, the two tree arcs per triangle and the one frond
per triangle. -/
theorem c4_each_edge_classified_once (n : Nat) (adj : Nat → List Nat)
    (HW : ∀ v, v < n → ∀ w ∈ adj v, w < n)
    (HS : ∀ v, v < n → ∀ w, w ∈ adj v → v ∈ adj w)
    (HN : ∀ v, v < n → (adj v).Nodup) :
    (∀ a b, a < n → b < n → a ≠ b →
        recCount (check_thickness_full n adj) a b
          = if b ∈ adj a then 1 else 0) ∧
    ((check_thickness_full 6 adjTwoTriangles).counter = 6 ∧
      (check_thickness_full 6 adjTwoTriangles).tree_arcs
        = [(0, 1), (1, 2), (3, 4), (4, 5)] ∧
      (check_thickness_full 6 adjTwoTriangles).fronds = [(2, 0), (5, 3)]) := by
  constructor
  · have hacc := checkLoop_acc HW HS HN (List.range n)
      { number := List.replicate n 0, tree_arcs := [], fronds := [], counter := 0 }
      (dfsInv_init n) (by simp)
    have hpost := check_thickness_full_post n adj HW
    intro a b ha hb hab
    unfold check_thickness_full
    have e := hacc a b ha hb hab
    rw [e]
    have h00 : recCount
        { number := List.replicate n 0, tree_arcs := [], fronds := [],
          counter := 0 } a b = 0 := rfl
    by_cases hE : b ∈ adj a
    · have hnz : getN (checkLoop adj n (List.range n)
          { number := List.replicate n 0, tree_arcs := [], fronds := [],
            counter := 0 }) a ≠ 0 :=
        hpost.wsVisited a (List.mem_range.mpr ha)
      rw [if_pos ⟨hE, Or.inl ⟨getD_replicate_zero n a, hnz⟩⟩, if_pos hE, h00]
    · rw [if_neg (fun hc => hE hc.1), if_neg hE, h00]
  · exact ⟨by decide, by decide, by decide⟩

theorem c4_each_edge_classified_once_witness :
    recCount (check_thickness_full 6 adjTwoTriangles) 0 1 = 1 ∧
    recCount (check_thickness_full 6 adjTwoTriangles) 0 3 = 0 := by
  have h := c4_each_edge_classified_once 6 adjTwoTriangles
    (by decide) (by decide) (by decide)
  refine ⟨?_, ?_⟩
  · rw [h.1 0 1 (by decide) (by decide) (by decide)]
    decide
  · rw [h.1 0 3 (by decide) (by decide) (by decide)]
    decide
